import Mathlib

/-!
Verification development for the pgen grammar compiler
(`parso/pgen2/pgen.py`): NFA-to-DFA subset construction, DFA state
minimization, FIRST-set computation with left-recursion and ambiguity
detection, and label/table assembly.

Modelling conventions:
* Python dicts are insertion-ordered association lists (`alInsert`:
  update in place keeps the position, a new key is appended at the end);
  sets-as-dicts (`{k: 1}`) are insertion-ordered duplicate-free lists.
* NFA states are handles (indices) into an arena `NFA.arcs`; object
  identity becomes handle equality.
* DFA states for one rule live in a list; during minimization the list
  of live handles shrinks while the arena keeps every entry, which
  models Python object identity under `del dfas[j]` exactly.
* Python exceptions (`ValueError`, failing `assert`) become `Except Err`
  or `Option`; unbounded loops take explicit fuel and return `none` on
  exhaustion, so every definition is structurally recursive and
  evaluates inside the kernel.
-/

namespace Pgen

/-- Python dict write `m[k] = v`: update in place if the key is present
(keeping its position), otherwise append at the end. -/
def alInsert {α β : Type} [BEq α] (m : List (α × β)) (k : α) (v : β) : List (α × β) :=
  if (m.lookup k).isSome then
    m.map (fun p => bif p.1 == k then (k, v) else p)
  else
    m ++ [(k, v)]

/-- Python `s[k] = 1` on a dict used as a set: insertion-ordered set insert. -/
def setInsert {α : Type} [BEq α] (l : List α) (k : α) : List α :=
  if l.contains k then l else l ++ [k]

/-- Python dict equality on dicts-used-as-sets: same keys, order ignored. -/
def setEq {α : Type} [BEq α] (l1 l2 : List α) : Bool :=
  l1.all (fun x => l2.contains x) && l2.all (fun x => l1.contains x)

/-- The apostrophe character, used to recognize quoted grammar labels. -/
def quoteChar : Char := Char.ofNat 39

/-- Wrap a string in single quotes, as grammar terminal labels are spelt. -/
def quoteS (s : String) : String :=
  String.singleton quoteChar ++ s ++ String.singleton quoteChar

/-- Evaluation of a quoted literal label (`eval(label)` on a simple
quoted string): drop the surrounding quote characters. -/
def stripQuotes (s : String) : String :=
  (s.drop 1).dropRight 1

/-- Lexicographic comparison of character lists by code point, modelling
Python string comparison for `names.sort()`. -/
def charListLe : List Char → List Char → Bool
  | [], _ => true
  | _ :: _, [] => false
  | c :: cs, d :: ds =>
    if c.toNat < d.toNat then true
    else if d.toNat < c.toNat then false
    else charListLe cs ds

/-- Python `<=` on strings: lexicographic by code point. -/
def strLe (a b : String) : Bool := charListLe a.data b.data

/-- The same comparison as a relation, for sorting. -/
def strLeP (a b : String) : Prop := strLe a b = true

instance : DecidableRel strLeP := fun a b => instDecidableEqBool (strLe a b) true

/-- Python `names.sort()`: stable ascending sort; with a total antisymmetric
order the result is the unique sorted permutation. -/
def sortNames (names : List String) : List String :=
  List.insertionSort strLeP names

/-!  ## NFA: arena of states produced by the external rule builder.
An arc is `(label, target handle)`; `none` is an epsilon arc. -/

structure NFA where
  arcs : List (List (Option String × Nat))
deriving Repr, DecidableEq

/-- Epsilon targets of one NFA state. -/
def NFA.epsTargets (nfa : NFA) (s : Nat) : Option (List Nat) :=
  (nfa.arcs[s]?).map (fun l => l.filterMap (fun p => if p.1.isNone then some p.2 else none))

/-- Worklist form of `addclosure`: depth-first epsilon closure accumulated
into `base` in Python dict insertion order.  `none` on fuel exhaustion or
on a dangling handle. -/
def addclosureF (nfa : NFA) : Nat → List Nat → List Nat → Option (List Nat)
  | _, [], base => some base
  | 0, _ :: _, _ => none
  | fuel + 1, s :: rest, base =>
    if base.contains s then
      addclosureF nfa fuel rest base
    else
      match nfa.epsTargets s with
      | none => none
      | some ts => addclosureF nfa fuel (ts ++ rest) (base ++ [s])

/-- Python `closure(state)`: epsilon closure of a single NFA state. -/
def closureOf (nfa : NFA) (fuel : Nat) (s : Nat) : Option (List Nat) :=
  addclosureF nfa fuel [s] []

/-!  ## DFA states. -/

structure DState where
  nfaset : List Nat
  isfinal : Bool
  arcs : List (String × Nat)
deriving Repr, DecidableEq

instance : Inhabited DState := ⟨⟨[], false, []⟩⟩

/-- Constructor `DFAState(nfaset, final)`: `isfinal` is membership of the
finish state in the nfaset; arcs start empty. -/
def mkDState (finish : Nat) (nset : List Nat) : DState :=
  ⟨nset, nset.contains finish, []⟩

/-- Method `DFAState.add_arc`: refuse a label already present, else append. -/
def addArc (st : DState) (label : String) (t : Nat) : Option DState :=
  if (st.arcs.lookup label).isSome then none
  else some { st with arcs := st.arcs ++ [(label, t)] }

/-- Grouping loop of `_make_dfas`: fold the labelled arcs of one NFA state
into the per-label epsilon-closed candidate sets (`arcs.setdefault(label,
dict)` then `addclosure(next, ...)` mutating the group in place). -/
def groupArcs (nfa : NFA) (fuel : Nat) :
    List (Option String × Nat) → List (String × List Nat) → Option (List (String × List Nat))
  | [], acc => some acc
  | (none, _) :: rest, acc => groupArcs nfa fuel rest acc
  | (some l, t) :: rest, acc =>
    match addclosureF nfa fuel [t] ((acc.lookup l).getD []) with
    | none => none
    | some grp => groupArcs nfa fuel rest (alInsert acc l grp)

/-- Grouping over every NFA state of the processed DFA state's nfaset. -/
def groupState (nfa : NFA) (fuel : Nat) :
    List Nat → List (String × List Nat) → Option (List (String × List Nat))
  | [], acc => some acc
  | ns :: rest, acc =>
    match nfa.arcs[ns]? with
    | none => none
    | some as =>
      match groupArcs nfa fuel as acc with
      | none => none
      | some acc2 => groupState nfa fuel rest acc2

/-- Arc-creation loop of `_make_dfas`: for each grouped label, target an
existing DFA state with a set-equal nfaset or append a fresh one, then
`add_arc` on the state at index `i`. -/
def processLabels (finish : Nat) :
    List (String × List Nat) → List DState → Nat → Option (List DState)
  | [], states, _ => some states
  | (label, nset) :: rest, states, i =>
    let found := states.findIdx? (fun st => setEq st.nfaset nset)
    let states2 := match found with
      | some _ => states
      | none => states ++ [mkDState finish nset]
    let t := match found with
      | some k => k
      | none => states.length
    match states2[i]? with
    | none => none
    | some sti =>
      match addArc sti label t with
      | none => none
      | some sti2 => processLabels finish rest (states2.set i sti2) i

/-- Main loop of `_make_dfas`: process DFA states in order while the list
grows behind the cursor. -/
def mainLoop (nfa : NFA) (finish : Nat) : Nat → List DState → Nat → Option (List DState)
  | 0, _, _ => none
  | fuel + 1, states, i =>
    match states[i]? with
    | none => some states
    | some sti =>
      match groupState nfa fuel sti.nfaset [] with
      | none => none
      | some arcsD =>
        match processLabels finish arcsD states i with
        | none => none
        | some states2 => mainLoop nfa finish fuel states2 (i + 1)

/-- Function `_make_dfas(start, finish)`: subset construction for one rule;
the first state is the epsilon closure of `start`. -/
def makeDfas (nfa : NFA) (fuel : Nat) (start finish : Nat) : Option (List DState) :=
  match closureOf nfa fuel start with
  | none => none
  | some base => mainLoop nfa finish fuel [mkDState finish base] 0

/-!  ## State minimization (`_simplify_dfas`).
The rule's Python list of DFAState objects is modelled as an arena
(`List DState`, one entry per object ever created, entries mutated in
place) plus the list `live` of handles currently in the Python list. -/

/-- Arena read; handles are valid by construction. -/
def arenaGet (arena : List DState) (id : Nat) : DState :=
  arena.getD id default

/-- Replace the entry at one position of a list. -/
def listModify {α : Type} : List α → Nat → (α → α) → List α
  | [], _, _ => []
  | a :: as, 0, f => f a :: as
  | a :: as, n + 1, f => a :: listModify as n f

/-- Method `DFAState.__eq__`: same `isfinal`, same number of arcs, and
every own arc's label maps in the other state to the identical target
(reference identity = handle equality).  The `nfaset` field is ignored. -/
def dfaEq (a b : DState) : Bool :=
  a.isfinal == b.isfinal &&
  a.arcs.length == b.arcs.length &&
  a.arcs.all (fun p => b.arcs.lookup p.1 == some p.2)

/-- Method `DFAState.unifystate(old, new)`: redirect arcs targeting `old`
to `new`. -/
def unifyState (st : DState) (old new_ : Nat) : DState :=
  { st with arcs := st.arcs.map (fun p => bif p.2 == old then (p.1, new_) else p) }

/-- Loop `for state in dfas: state.unifystate(state_j, state_i)` over the
states remaining live after the deletion. -/
def unifyAll (arena : List DState) (live : List Nat) (old new_ : Nat) : List DState :=
  live.foldl (fun ar id => listModify ar id (fun st => unifyState st old new_)) arena

/-- Positions `k, k+1, ...` paired with the elements of a list. -/
def enumFrom {α : Type} : Nat → List α → List (Nat × α)
  | _, [] => []
  | k, a :: as => (k, a) :: enumFrom (k + 1) as

/-- Inner scan `for j in range(i+1, ...)`: first later position whose state
equals the scanned state. -/
def findMerge (arena : List DState) (si : DState) : List (Nat × Nat) → Option Nat
  | [] => none
  | (j, id) :: rest =>
    if dfaEq si (arenaGet arena id) then some j else findMerge arena si rest

/-- One pass of the `while changes` body of `_simplify_dfas`: scan `i`
over the (mutating) live list; on a match delete position `j`, redirect
every remaining state's arcs, record a change, and continue with `i+1`.
The fuel is the iteration count of the `i` cursor, bounded by the initial
list length. -/
def passAux : Nat → List DState → List Nat → Nat → Bool →
    (List DState × List Nat × Bool)
  | 0, arena, live, _, changed => (arena, live, changed)
  | fuel + 1, arena, live, i, changed =>
    if i < live.length then
      let si := arenaGet arena (live.getD i 0)
      match findMerge arena si (enumFrom (i + 1) (live.drop (i + 1))) with
      | none => passAux fuel arena live (i + 1) changed
      | some j =>
        let idj := live.getD j 0
        let idi := live.getD i 0
        let live2 := live.eraseIdx j
        let arena2 := unifyAll arena live2 idj idi
        passAux fuel arena2 live2 (i + 1) true
    else
      (arena, live, changed)

/-- One full pass over all pairs, starting unchanged. -/
def simplifyPass (arena : List DState) (live : List Nat) :
    (List DState × List Nat × Bool) :=
  passAux live.length arena live 0 false

/-- Fixpoint loop of `_simplify_dfas`; each changed pass strictly shrinks
the live list, so fuel `live.length + 1` always suffices (proved below). -/
def simplifyLoop : Nat → List DState → List Nat → Option (List DState × List Nat)
  | 0, _, _ => none
  | fuel + 1, arena, live =>
    match simplifyPass arena live with
    | (a2, l2, true) => simplifyLoop fuel a2 l2
    | (a2, l2, false) => some (a2, l2)

/-- Function `_simplify_dfas(dfas)`. -/
def simplifyDfas (arena : List DState) (live : List Nat) :
    Option (List DState × List Nat) :=
  simplifyLoop (live.length + 1) arena live

/-!  ## First sets (`_addfirstsets` / `_calcfirst`). -/

/-- Fatal compilation errors (Python `ValueError` / failing `assert`). -/
inductive Err where
  | leftRecursion (rule : String)
  | ambiguous (rule symbol label other : String)
  | unknownToken (label : String)
  | internal (what : String)
deriving Repr, DecidableEq

/-- The `self._first` cache: key absent = not started, value `none` = the
in-progress sentinel (`self._first[name] = None`), value `some s` = the
computed set. -/
abbrev FirstMap := List (String × Option (List String))

/-- One rule's compiled DFA: the arena and the live handle list. -/
abbrev DfaRep := List DState × List Nat

/-- The `rule_to_dfas` mapping. -/
abbrev RuleDfas := List (String × DfaRep)

/-- The start DFA state `dfa[0]` of a rule's representation. -/
def startState (rep : DfaRep) : Option DState :=
  (rep.2.head?).map (fun id => arenaGet rep.1 id)

/-- Arc loop of `_calcfirst`: walk the start state's arcs accumulating the
total set and the overlap-check map, recursing into referenced rules via
`recur` (which is `_calcfirst` at one less fuel). -/
def calcfirstGo (recur : FirstMap → String → Option (Except Err FirstMap))
    (dfas : RuleDfas) (name : String) :
    List (String × Nat) → FirstMap → List String → List (String × List String) →
    Option (Except Err (FirstMap × List String × List (String × List String)))
  | [], first, total, overlap => some (Except.ok (first, total, overlap))
  | (label, _) :: rest, first, total, overlap =>
    if (dfas.lookup label).isSome then
      match first.lookup label with
      | some fsetOpt =>
        match fsetOpt with
        | none => some (Except.error (Err.leftRecursion name))
        | some fset =>
          calcfirstGo recur dfas name rest first (fset.foldl setInsert total)
            (alInsert overlap label fset)
      | none =>
        match recur first label with
        | none => none
        | some (Except.error e) => some (Except.error e)
        | some (Except.ok first2) =>
          match first2.lookup label with
          | some (some fset) =>
            calcfirstGo recur dfas name rest first2 (fset.foldl setInsert total)
              (alInsert overlap label fset)
          | _ => some (Except.error (Err.internal label))
    else
      calcfirstGo recur dfas name rest first (setInsert total label)
        (alInsert overlap label [label])

/-- Inner loop of the overlap check: insert each symbol of one arc's
contribution into the inverse map, failing on a symbol seen before. -/
def checkSymbols (name label : String) :
    List String → List (String × String) → Except Err (List (String × String))
  | [], inverse => Except.ok inverse
  | symbol :: rest, inverse =>
    match inverse.lookup symbol with
    | some other => Except.error (Err.ambiguous name symbol label other)
    | none => checkSymbols name label rest (alInsert inverse symbol label)

/-- Overlap check of `_calcfirst`: build the inverse map from contributed
symbol back to the contributing arc, failing on any overlap. -/
def checkOverlap (name : String) :
    List (String × List String) → List (String × String) →
    Except Err (List (String × String))
  | [], inverse => Except.ok inverse
  | (label, itsfirst) :: rest, inverse =>
    match checkSymbols name label itsfirst inverse with
    | Except.error e => Except.error e
    | Except.ok inverse2 => checkOverlap name rest inverse2

/-- Method `_calcfirst(name)`: store the in-progress sentinel, walk the
start state's arcs (recursing into uncomputed referenced rules), run the
overlap check, then store the computed set.  `none` on fuel exhaustion. -/
def calcfirst : Nat → RuleDfas → FirstMap → String → Option (Except Err FirstMap)
  | 0, _, _, _ => none
  | fuel + 1, dfas, first, name =>
    match dfas.lookup name with
    | none => some (Except.error (Err.internal name))
    | some rep =>
      let first1 := alInsert first name none
      match startState rep with
      | none => some (Except.error (Err.internal name))
      | some st =>
        match calcfirstGo (calcfirst fuel dfas) dfas name st.arcs first1 [] [] with
        | none => none
        | some (Except.error e) => some (Except.error e)
        | some (Except.ok (first2, total, overlap)) =>
          match checkOverlap name overlap [] with
          | Except.error e => some (Except.error e)
          | Except.ok _ => some (Except.ok (alInsert first2 name (some total)))

/-- Loop body of `_addfirstsets`: compute each not-yet-present rule's
first set, in sorted name order. -/
def addfirstsetsGo (fuel : Nat) (dfas : RuleDfas) :
    List String → FirstMap → Option (Except Err FirstMap)
  | [], first => some (Except.ok first)
  | name :: rest, first =>
    if (first.lookup name).isSome then
      addfirstsetsGo fuel dfas rest first
    else
      match calcfirst fuel dfas first name with
      | none => none
      | some (Except.error e) => some (Except.error e)
      | some (Except.ok first2) => addfirstsetsGo fuel dfas rest first2

/-- Method `_addfirstsets`. -/
def addfirstsets (fuel : Nat) (dfas : RuleDfas) : Option (Except Err FirstMap) :=
  addfirstsetsGo fuel dfas (sortNames (dfas.map Prod.fst)) []

/-!  ## Label and table assembly (`ParserGenerator.make_grammar`). -/

/-- Modelled from the spec: the external token namespace (the
`parso.python.token` module is outside `src/`).  It provides named
terminal-class identifiers reachable by name, a function mapping an
operator string to a stable terminal-class identifier, and the generic
name terminal class `token.NAME` used for keywords. -/
structure TokenNamespace where
  named : List (String × Nat)
  generate : String → Nat
  NAME : Nat

/-- Modelled from the spec: the Grammar container (`pgen2/grammar.py` is
outside `src/`): symbol tables, the label list whose id 0 is the reserved
accept sentinel, keyword/token/symbol label indexes, per-rule states and
dfas, and the start symbol. -/
structure Grammar where
  start_symbol : String
  symbol2number : List (String × Nat)
  number2symbol : List (Nat × String)
  states : List (List (List (Nat × Nat)))
  dfas : List (Nat × (List (List (Nat × Nat)) × List Nat))
  labels : List (Nat × Option String)
  keywords : List (String × Nat)
  tokens : List (Nat × Nat)
  symbol2label : List (String × Nat)
  label2symbol : List (Nat × String)
deriving Repr, DecidableEq

/-- Fresh Grammar value: every table empty except the reserved id-0
sentinel entry of `labels`. -/
def Grammar.init (start : String) : Grammar :=
  ⟨start, [], [], [], [], [(0, some "EMPTY")], [], [], [], []⟩

/-- Method `_make_label(grammar, label)`: classify a textual label into a
nonterminal reference, named token, keyword or operator, assigning a
fresh dense id (`len(grammar.labels)`) on first use and deduplicating via
`symbol2label`, `tokens` and `keywords` afterwards. -/
def makeLabel (toks : TokenNamespace) (g : Grammar) (label : String) :
    Except Err (Grammar × Nat) :=
  let ilabel := g.labels.length
  if label.front.isAlpha then
    match g.symbol2number.lookup label with
    | some num =>
      match g.symbol2label.lookup label with
      | some v => Except.ok (g, v)
      | none =>
        Except.ok ({ g with
          labels := g.labels ++ [(num, none)],
          symbol2label := alInsert g.symbol2label label ilabel,
          label2symbol := alInsert g.label2symbol ilabel label }, ilabel)
    | none =>
      match toks.named.lookup label with
      | none => Except.error (Err.unknownToken label)
      | some itoken =>
        match g.tokens.lookup itoken with
        | some v => Except.ok (g, v)
        | none =>
          Except.ok ({ g with
            labels := g.labels ++ [(itoken, none)],
            tokens := alInsert g.tokens itoken ilabel }, ilabel)
  else
    if label.front == quoteChar || label.front == Char.ofNat 34 then
      let value := stripQuotes label
      if value.front.isAlpha then
        match g.keywords.lookup value with
        | some v => Except.ok (g, v)
        | none =>
          Except.ok ({ g with
            labels := g.labels ++ [(toks.NAME, some value)],
            keywords := alInsert g.keywords value ilabel }, ilabel)
      else
        let itoken := toks.generate value
        match g.tokens.lookup itoken with
        | some v => Except.ok (g, v)
        | none =>
          Except.ok ({ g with
            labels := g.labels ++ [(itoken, none)],
            tokens := alInsert g.tokens itoken ilabel }, ilabel)
    else
      Except.error (Err.unknownToken label)

/-- Loop of `_make_first`: translate each raw first-set label through the
classifier and collect the ids as an insertion-ordered set. -/
def makeFirstGo (toks : TokenNamespace) :
    List String → Grammar → List Nat → Except Err (Grammar × List Nat)
  | [], g, fs => Except.ok (g, fs)
  | label :: rest, g, fs =>
    match makeLabel toks g label with
    | Except.error e => Except.error e
    | Except.ok (g2, ilabel) => makeFirstGo toks rest g2 (setInsert fs ilabel)

/-- Method `_make_first(grammar, name)` given the rule's raw first set. -/
def makeFirst (toks : TokenNamespace) (g : Grammar) (raw : List String) :
    Except Err (Grammar × List Nat) :=
  makeFirstGo toks raw g []

/-- Python `dfa.index(next)`: first live state structurally equal
(`DFAState.__eq__`) to the referenced one. -/
def dfaIndex (arena : List DState) (live : List Nat) (t : Nat) : Option Nat :=
  live.findIdx? (fun id2 => dfaEq (arenaGet arena id2) (arenaGet arena t))

/-- Arc loop over one DFA state in `make_grammar`: translate each
`(label, target)` into `(label id, target index)`. -/
def buildArcs (toks : TokenNamespace) (arena : List DState) (live : List Nat) :
    List (String × Nat) → Grammar → List (Nat × Nat) →
    Except Err (Grammar × List (Nat × Nat))
  | [], g, acc => Except.ok (g, acc)
  | (label, t) :: rest, g, acc =>
    match makeLabel toks g label with
    | Except.error e => Except.error e
    | Except.ok (g2, ilabel) =>
      match dfaIndex arena live t with
      | none => Except.error (Err.internal label)
      | some k => buildArcs toks arena live rest g2 (acc ++ [(ilabel, k)])

/-- State loop of `make_grammar` for one rule: per state build its arc
list, appending the accept arc `(0, own index)` when the state is final. -/
def buildStates (toks : TokenNamespace) (arena : List DState) (live : List Nat) :
    List Nat → Grammar → List (List (Nat × Nat)) →
    Except Err (Grammar × List (List (Nat × Nat)))
  | [], g, acc => Except.ok (g, acc)
  | id :: rest, g, acc =>
    let st := arenaGet arena id
    match buildArcs toks arena live st.arcs g [] with
    | Except.error e => Except.error e
    | Except.ok (g2, arcs) =>
      let arcs2 :=
        if st.isfinal then
          match dfaIndex arena live id with
          | none => arcs
          | some k => arcs ++ [(0, k)]
        else arcs
      buildStates toks arena live rest g2 (acc ++ [arcs2])

/-- Symbol-numbering loop of `make_grammar` (lines 37-40): each rule name,
in the given order, receives `256 + len(symbol2number)`. -/
def assignSymbols : Grammar → List String → Grammar
  | g, [] => g
  | g, name :: rest =>
    let i := 256 + g.symbol2number.length
    assignSymbols
      { g with
        symbol2number := alInsert g.symbol2number name i,
        number2symbol := alInsert g.number2symbol i name }
      rest

/-- Per-rule loop of `make_grammar` (lines 41-52): build the state table,
append it to `grammar.states`, then attach `(states, first)` under the
rule's symbol number, translating the first set via `_make_first`. -/
def rulesLoop (toks : TokenNamespace) (dfas : RuleDfas) (first : FirstMap) :
    List String → Grammar → Except Err Grammar
  | [], g => Except.ok g
  | name :: rest, g =>
    match dfas.lookup name with
    | none => Except.error (Err.internal name)
    | some rep =>
      match buildStates toks rep.1 rep.2 rep.2 g [] with
      | Except.error e => Except.error e
      | Except.ok (g2, states) =>
        let g3 := { g2 with states := g2.states ++ [states] }
        match first.lookup name with
        | some (some raw) =>
          match makeFirst toks g3 raw with
          | Except.error e => Except.error e
          | Except.ok (g4, fs) =>
            match g4.symbol2number.lookup name with
            | none => Except.error (Err.internal name)
            | some num =>
              rulesLoop toks dfas first rest
                { g4 with dfas := alInsert g4.dfas num (states, fs) }
        | _ => Except.error (Err.internal name)

/-- Method `make_grammar(grammar)`: compute all first sets, assign symbol
numbers in sorted name order, then run the per-rule table loop. -/
def makeGrammar (fuel : Nat) (toks : TokenNamespace) (dfas : RuleDfas)
    (g : Grammar) : Option (Except Err Grammar) :=
  match addfirstsets fuel dfas with
  | none => none
  | some (Except.error e) => some (Except.error e)
  | some (Except.ok first) =>
    let names := sortNames (dfas.map Prod.fst)
    some (rulesLoop toks dfas first names (assignSymbols g names))

/-- One input rule for the pipeline: name, NFA fragment, start and finish
handles (the output interface of the external BNF-to-NFA builder). -/
structure RuleInput where
  name : String
  nfa : NFA
  start : Nat
  finish : Nat

/-- Rule loop of `generate_grammar`: subset-construct and minimize each
rule, recording its DFA under the rule name. -/
def buildRuleDfas (fuel : Nat) : List RuleInput → RuleDfas → Option RuleDfas
  | [], acc => some acc
  | r :: rest, acc =>
    match makeDfas r.nfa fuel r.start r.finish with
    | none => none
    | some states =>
      match simplifyDfas states (List.range states.length) with
      | none => none
      | some rep => buildRuleDfas fuel rest (alInsert acc r.name rep)

/-- Function `generate_grammar(bnf_grammar, token_namespace)` operating on
the external builder's output: the full compilation pipeline. -/
def generateGrammar (fuel : Nat) (rules : List RuleInput)
    (toks : TokenNamespace) : Option (Except Err Grammar) :=
  match buildRuleDfas fuel rules [] with
  | none => none
  | some dfas =>
    let start := (rules.head?.map RuleInput.name).getD ""
    makeGrammar fuel toks dfas (Grammar.init start)

/-!  ## Concrete inputs used by the closed theorems. -/

/-- Token namespace assigning distinct ids to distinct operator strings
(Modelled from the spec: the namespace allocates new identifiers for
previously unseen operators). -/
def toks0 : TokenNamespace :=
  ⟨[("NAME", 1), ("NUMBER", 2), ("STRING", 3)],
   fun v => 300 + v.foldl (fun a c => a * 256 + c.toNat) 0, 1⟩

/-- Token namespace mapping every operator spelling to the single token
id 57, exhibiting the operator-collision behaviour the source comments on
(`XXX failed on <> ... !=`). -/
def toksColl : TokenNamespace := ⟨[("NAME", 1)], fun _ => 57, 1⟩

/-- NFA fragment of the left-recursive rule `a: a 'x' | 'y'`. -/
def nfaC1 : NFA :=
  ⟨[[(some "a", 1), (some (quoteS "y"), 3)], [(some (quoteS "x"), 2)], [(none, 3)], []]⟩

def rulesC1 : List RuleInput := [⟨"a", nfaC1, 0, 3⟩]

/-- NFA fragment of `a: b | c` for the ambiguity scenario. -/
def nfaC2a : NFA := ⟨[[(some "b", 1), (some "c", 1)], []]⟩

/-- NFA fragment of `b: 'x'` (also reused for `c: 'x'`). -/
def nfaC2b : NFA := ⟨[[(some (quoteS "x"), 1)], []]⟩

def rulesC2 : List RuleInput :=
  [⟨"a", nfaC2a, 0, 1⟩, ⟨"b", nfaC2b, 0, 1⟩, ⟨"c", nfaC2b, 0, 1⟩]

/-- NFA fragment of `a: '<>' | '!='`: two operator spellings. -/
def nfaC10 : NFA := ⟨[[(some (quoteS "<>"), 1), (some (quoteS "!="), 1)], []]⟩

def rulesC10 : List RuleInput := [⟨"a", nfaC10, 0, 1⟩]

/-- NFA fragment of `a: 'if' | "if"`: the same keyword under two quote
spellings, two textually distinct labels. -/
def nfaC3 : NFA := ⟨[[(some (quoteS "if"), 1), (some "\"if\"", 1)], []]⟩

def rulesC3 : List RuleInput := [⟨"a", nfaC3, 0, 1⟩]

/-- NFA fragment of `a: b` for the first-set translation scenario. -/
def nfaC6a : NFA := ⟨[[(some "b", 1)], []]⟩

/-- NFA fragment of `b: 'x'`. -/
def nfaC6b : NFA := ⟨[[(some (quoteS "x"), 1)], []]⟩

def rulesC6 : List RuleInput := [⟨"a", nfaC6a, 0, 1⟩, ⟨"b", nfaC6b, 0, 1⟩]

/-!  ## Association-list facts. -/

theorem lookup_alInsert_self {α β : Type} [BEq α] [LawfulBEq α]
    (m : List (α × β)) (k : α) (v : β) : (alInsert m k v).lookup k = some v := by
  unfold alInsert
  split
  · rename_i h
    induction m with
    | nil => simp at h
    | cons p ps ih =>
      by_cases hkp : k = p.1
      · subst hkp
        simp [List.lookup]
      · have h1 : (p.1 == k) = false := by
          simp only [beq_eq_false_iff_ne]
          exact fun hh => hkp hh.symm
        have h2 : (k == p.1) = false := by simp [beq_eq_false_iff_ne, hkp]
        simp only [List.lookup, h2] at h
        simp only [List.map_cons, List.lookup, h1, h2]
        simpa using ih h
  · rename_i h
    induction m with
    | nil => simp [List.lookup]
    | cons p ps ih =>
      by_cases hkp : k = p.1
      · have h2 : (k == p.1) = true := by simp [hkp]
        simp [List.lookup, h2] at h
      · have h2 : (k == p.1) = false := by simp [beq_eq_false_iff_ne, hkp]
        simp only [List.lookup, h2] at h
        simp only [List.cons_append, List.lookup, h2]
        exact ih h

instance {ε α : Type} [DecidableEq ε] [DecidableEq α] : DecidableEq (Except ε α) := fun x y =>
  match x, y with
  | Except.error e1, Except.error e2 =>
    if h : e1 = e2 then isTrue (by rw [h]) else isFalse (by intro hh; cases hh; exact h rfl)
  | Except.ok a1, Except.ok a2 =>
    if h : a1 = a2 then isTrue (by rw [h]) else isFalse (by intro hh; cases hh; exact h rfl)
  | Except.error _, Except.ok _ => isFalse (by intro hh; cases hh)
  | Except.ok _, Except.error _ => isFalse (by intro hh; cases hh)

/-- Guard of `_calcfirst`: an arc whose label is a rule whose first-set
slot holds the in-progress sentinel raises the left-recursion error. -/
theorem calcfirstGo_sentinel
    (recur : FirstMap → String → Option (Except Err FirstMap)) (dfas : RuleDfas)
    (name label : String) (t : Nat) (rest : List (String × Nat))
    (first : FirstMap) (total : List String) (overlap : List (String × List String))
    (h1 : (dfas.lookup label).isSome) (h2 : first.lookup label = some none) :
    calcfirstGo recur dfas name ((label, t) :: rest) first total overlap
      = some (Except.error (Err.leftRecursion name)) := by
  simp only [calcfirstGo, h1, h2, if_true]

/-- Guard of the overlap check: a symbol already contributed by another
arc raises the ambiguity error naming both arcs. -/
theorem checkSymbols_overlap (name label symbol : String) (rest : List String)
    (inverse : List (String × String)) (other : String)
    (h : inverse.lookup symbol = some other) :
    checkSymbols name label (symbol :: rest) inverse
      = Except.error (Err.ambiguous name symbol label other) := by
  simp only [checkSymbols, h]

/-- The classifier `_make_label` fails only with an unknown-token error. -/
theorem makeLabel_error (toks : TokenNamespace) (g : Grammar) (label : String)
    (e : Err) (h : makeLabel toks g label = Except.error e) :
    e = Err.unknownToken label := by
  unfold makeLabel at h
  repeat' split at h
  all_goals try (dsimp only at h; repeat' split at h)
  all_goals simp_all

/-- The first-set translation `_make_first` fails only with an
unknown-token error: there is no duplicate-id check at this stage. -/
theorem makeFirstGo_error (toks : TokenNamespace) :
    ∀ (raw : List String) (g : Grammar) (fs : List Nat) (e : Err),
    makeFirstGo toks raw g fs = Except.error e → ∃ l, e = Err.unknownToken l
  | [], g, fs, e, h => by simp [makeFirstGo] at h
  | label :: rest, g, fs, e, h => by
    simp only [makeFirstGo] at h
    split at h
    · rename_i heq
      cases h
      exact ⟨label, makeLabel_error toks g label e heq⟩
    · exact makeFirstGo_error toks rest _ _ e h

/-- Claim C1: when first-set computation reaches, through a start state's
arcs, a referenced rule whose first-set slot holds the in-progress
sentinel, compilation fails with a fatal left-recursion error naming a
rule (the sentinel is stored before the arcs are inspected, so even an
immediately self-referencing rule fails), and the grammar
`a: a 'x' | 'y'` fails the whole pipeline this way, producing no Grammar
table. -/
theorem thmC1 :
    (∀ (recur : FirstMap → String → Option (Except Err FirstMap)) (dfas : RuleDfas)
       (name label : String) (t : Nat) (rest : List (String × Nat))
       (first : FirstMap) (total : List String) (overlap : List (String × List String)),
       (dfas.lookup label).isSome →
       first.lookup label = some none →
       calcfirstGo recur dfas name ((label, t) :: rest) first total overlap
         = some (Except.error (Err.leftRecursion name))) ∧
    (∀ (fuel : Nat) (dfas : RuleDfas) (first : FirstMap) (name : String)
       (rep : DfaRep) (st : DState) (t : Nat) (rest : List (String × Nat)),
       dfas.lookup name = some rep →
       startState rep = some st →
       st.arcs = (name, t) :: rest →
       calcfirst (fuel + 1) dfas first name
         = some (Except.error (Err.leftRecursion name))) ∧
    generateGrammar 50 rulesC1 toks0 = some (Except.error (Err.leftRecursion "a")) := by
  refine ⟨calcfirstGo_sentinel, ?_, by decide⟩
  intro fuel dfas first name rep st t rest hdfas hstart harcs
  simp only [calcfirst, hdfas, hstart, harcs]
  rw [calcfirstGo_sentinel _ _ _ _ _ _ _ _ _ (by simp [hdfas])
    (lookup_alInsert_self first name none)]

/-- Witness for thmC1 at concrete inputs. -/
theorem thmC1_witness :
    ((([("a", (([] : List DState), ([] : List Nat)))] : RuleDfas).lookup "a").isSome = true) ∧
    (([("a", (none : Option (List String)))] : FirstMap).lookup "a" = some none) ∧
    calcfirstGo (fun _ _ => none) [("a", ([], []))] "a" [("a", 0)]
      [("a", none)] [] [] = some (Except.error (Err.leftRecursion "a")) :=
  ⟨by decide, by decide, thmC1.1 _ _ _ _ _ _ _ _ _ (by decide) (by decide)⟩

/-- Claim C2: two arcs of one rule's start state contributing the same
first-set label raise a fatal ambiguous-grammar error reporting the rule
name, the conflicting label and both contributing arcs; the grammar
`a: b | c` with `b: 'x'` and `c: 'x'` fails the whole pipeline this way,
citing label `'x'` contributed by `c` as well as `b`. -/
theorem thmC2 :
    (∀ (name label symbol : String) (rest : List String)
       (inverse : List (String × String)) (other : String),
       inverse.lookup symbol = some other →
       checkSymbols name label (symbol :: rest) inverse
         = Except.error (Err.ambiguous name symbol label other)) ∧
    generateGrammar 50 rulesC2 toks0
      = some (Except.error (Err.ambiguous "a" (quoteS "x") "c" "b")) :=
  ⟨checkSymbols_overlap, by decide⟩

/-- Witness for thmC2 at concrete inputs. -/
theorem thmC2_witness :
    (([("x", "b")] : List (String × String)).lookup "x" = some "b") ∧
    checkSymbols "a" "c" ["x"] [("x", "b")]
      = Except.error (Err.ambiguous "a" "x" "c" "b") :=
  ⟨by decide, thmC2.1 "a" "c" "x" [] [("x", "b")] "b" (by decide)⟩

/-- Final Grammar table of `a: '<>' | '!='` under the colliding namespace. -/
def c10Final : Grammar :=
  ⟨"a", [("a", 256)], [(256, "a")], [[[(1, 1), (1, 1)], [(0, 1)]]],
   [(256, ([[(1, 1), (1, 1)], [(0, 1)]], [1]))],
   [(0, some "EMPTY"), (57, none)], [], [(57, 1)], [], []⟩

/-- Claim C10: the translated first-set is keyed by label id, so two
distinct raw labels resolving to one token id silently collapse into a
single entry with no error: `_make_first` can only fail with an
unknown-token error, the textual overlap check accepts the two distinct
spellings, and the pipeline for `a: '<>' | '!='` under a namespace
mapping both spellings to token id 57 succeeds with a one-entry
first-set. -/
theorem thmC10 :
    (∀ (toks : TokenNamespace) (raw : List String) (g : Grammar)
       (fs : List Nat) (e : Err),
       makeFirstGo toks raw g fs = Except.error e → ∃ l, e = Err.unknownToken l) ∧
    addfirstsets 50 ((buildRuleDfas 50 rulesC10 []).getD [])
      = some (Except.ok [("a", some [quoteS "<>", quoteS "!="])]) ∧
    quoteS "<>" ≠ quoteS "!=" ∧
    toksColl.generate (stripQuotes (quoteS "<>"))
      = toksColl.generate (stripQuotes (quoteS "!=")) ∧
    generateGrammar 50 rulesC10 toksColl = some (Except.ok c10Final) ∧
    (c10Final.dfas.lookup 256).map Prod.snd = some [1] :=
  ⟨fun toks raw g fs e h => makeFirstGo_error toks raw g fs e h,
   by decide, by decide, by decide, by decide, by decide⟩

/-- Witness for thmC10 at a concrete failing classifier input. -/
theorem thmC10_witness :
    makeFirstGo toks0 ["?"] (Grammar.init "a") []
      = Except.error (Err.unknownToken "?") ∧
    (∃ l, Err.unknownToken "?" = Err.unknownToken l) :=
  ⟨by decide, thmC10.1 toks0 ["?"] (Grammar.init "a") [] _ (by decide)⟩

/-- Final Grammar table of `a: 'if' | "if"`. -/
def c3Final : Grammar :=
  ⟨"a", [("a", 256)], [(256, "a")], [[[(1, 1), (1, 1)], [(0, 1)]]],
   [(256, ([[(1, 1), (1, 1)], [(0, 1)]], [1]))],
   [(0, some "EMPTY"), (1, some "if")], [("if", 1)], [], [], []⟩

/-- Counterexample to claim C3 as stated: in the compiled table of the
grammar `a: 'if' | "if"` (two textually distinct quote spellings of one
keyword, so every construction-stage check passes), the start state's
final arc-list carries the same label id twice. -/
theorem thmC3_counterexample :
    quoteS "if" ≠ "\"if\"" ∧
    generateGrammar 50 rulesC3 toks0 = some (Except.ok c3Final) ∧
    ((c3Final.states.headD []).headD []).map Prod.fst = [1, 1] ∧
    ¬ ([1, 1] : List Nat).Nodup :=
  ⟨by decide, by decide, by decide, by decide⟩

/-- The rule table of the grammar `a: b` with `b: 'x'`. -/
def c6Dfas : RuleDfas := (buildRuleDfas 50 rulesC6 []).getD []

/-- Its computed first sets. -/
def c6First : FirstMap :=
  match addfirstsets 50 c6Dfas with
  | some (Except.ok f) => f
  | _ => []

def c6Names : List String :=
  sortNames (c6Dfas.map Prod.fst)

/-- Grammar state after symbol numbering. -/
def c6G0 : Grammar := assignSymbols (Grammar.init "a") c6Names

def c6RepA : DfaRep := (c6Dfas.lookup "a").getD ([], [])

/-- Grammar state reached in `make_grammar` immediately before the first
`_make_first` call (rule `a`'s arc table built and appended). -/
def c6G1 : Grammar :=
  match buildStates toks0 c6RepA.1 c6RepA.2 c6RepA.2 c6G0 [] with
  | Except.ok p => { p.1 with states := p.1.states ++ [p.2] }
  | Except.error _ => c6G0

/-- The raw first set `_make_first` is called with for rule `a`. -/
def c6Raw : List String := ((c6First.lookup "a").getD none).getD []

/-- Final Grammar table of `a: b` with `b: 'x'`. -/
def c6Final : Grammar :=
  ⟨"a", [("a", 256), ("b", 257)], [(256, "a"), (257, "b")],
   [[[(1, 1)], [(0, 1)]], [[(2, 1)], [(0, 1)]]],
   [(256, ([[(1, 1)], [(0, 1)]], [2])), (257, ([[(2, 1)], [(0, 1)]], [2]))],
   [(0, some "EMPTY"), (257, none), (1, some "x")],
   [("x", 2)], [], [("b", 1)], [(1, "b")]⟩

/-- Counterexample to claim C6 as stated: compiling `a: b` with `b: 'x'`,
the `_make_first` step for rule `a` receives the raw first-set
`['x']` before rule `b`'s arcs were ever classified (rule `b` comes later
in lexicographic order), and so creates a new `grammar.labels` entry:
the label list grows from two entries to three during `_make_first`. -/
theorem thmC6_counterexample :
    c6Raw = [quoteS "x"] ∧
    c6G1.labels.length = 2 ∧
    (makeFirst toks0 c6G1 c6Raw).map (fun p => p.1.labels.length) = Except.ok 3 ∧
    generateGrammar 50 rulesC6 toks0 = some (Except.ok c6Final) :=
  ⟨by decide, by decide, by decide, by decide⟩

/-!  ## Symbol numbering (claim C7). -/

theorem lookup_singleton {α β : Type} [BEq α] (a : α) (b : β) (k : α) :
    ([(a, b)] : List (α × β)).lookup k = if k == a then some b else none := by
  cases hk : (k == a) <;> simp [List.lookup, hk]

theorem lookup_append_of_none {α β : Type} [BEq α] (l1 l2 : List (α × β)) (k : α)
    (h : l1.lookup k = none) : (l1 ++ l2).lookup k = l2.lookup k := by
  induction l1 with
  | nil => simp
  | cons p ps ih =>
    simp only [List.lookup, List.cons_append] at h ⊢
    cases hk : (k == p.1)
    · simp only [hk] at h ⊢
      exact ih h
    · simp [hk] at h

theorem alInsert_of_absent {α β : Type} [BEq α] (m : List (α × β)) (k : α) (v : β)
    (h : m.lookup k = none) : alInsert m k v = m ++ [(k, v)] := by
  simp [alInsert, h]

theorem charListLe_refl : ∀ a, charListLe a a = true := by
  intro a
  induction a with
  | nil => simp [charListLe]
  | cons c cs ih => simp [charListLe, ih]

theorem charListLe_total : ∀ a b, charListLe a b = true ∨ charListLe b a = true := by
  intro a
  induction a with
  | nil => intro b; left; cases b <;> simp [charListLe]
  | cons c cs ih =>
    intro b
    cases b with
    | nil => right; simp [charListLe]
    | cons d ds =>
      simp only [charListLe]
      rcases Nat.lt_trichotomy c.toNat d.toNat with h | h | h
      · left; simp [h]
      · have h1 : ¬ c.toNat < d.toNat := by omega
        have h2 : ¬ d.toNat < c.toNat := by omega
        simpa [h1, h2, h] using ih ds
      · right; simp [charListLe, h]

theorem charListLe_antisymm : ∀ a b, charListLe a b = true → charListLe b a = true → a = b := by
  intro a
  induction a with
  | nil =>
    intro b _ hba
    cases b with
    | nil => rfl
    | cons d ds => simp [charListLe] at hba
  | cons c cs ih =>
    intro b hab hba
    cases b with
    | nil => simp [charListLe] at hab
    | cons d ds =>
      simp only [charListLe] at hab hba
      rcases Nat.lt_trichotomy c.toNat d.toNat with h | h | h
      · have h2 : ¬ d.toNat < c.toNat := by omega
        simp [h, h2] at hba
      · have h1 : ¬ c.toNat < d.toNat := by omega
        have h2 : ¬ d.toNat < c.toNat := by omega
        simp only [h1, h2, if_false] at hab hba
        have hc : c = d := Char.eq_of_val_eq (UInt32.ext h)
        rw [hc, ih ds (by simpa [h1, h2] using hab) (by simpa [h1, h2] using hba)]
      · have h1 : ¬ c.toNat < d.toNat := by omega
        simp [h, h1] at hab

theorem charListLe_trans : ∀ a b c, charListLe a b = true → charListLe b c = true →
    charListLe a c = true := by
  intro a
  induction a with
  | nil => intro b c _ _; cases c <;> simp [charListLe]
  | cons x xs ih =>
    intro b c hab hbc
    cases b with
    | nil => simp [charListLe] at hab
    | cons y ys =>
      cases c with
      | nil => simp [charListLe] at hbc
      | cons z zs =>
        simp only [charListLe] at hab hbc ⊢
        rcases Nat.lt_trichotomy x.toNat z.toNat with h | h | h
        · simp [h]
        · have h1 : ¬ x.toNat < z.toNat := by omega
          have h2 : ¬ z.toNat < x.toNat := by omega
          simp only [h1, h2, if_false]
          rcases Nat.lt_trichotomy x.toNat y.toNat with hxy | hxy | hxy
          · rcases Nat.lt_trichotomy y.toNat z.toNat with hyz | hyz | hyz
            · omega
            · omega
            · have hy1 : ¬ y.toNat < z.toNat := by omega
              simp [hy1, hyz] at hbc
          · have hx1 : ¬ x.toNat < y.toNat := by omega
            have hx2 : ¬ y.toNat < x.toNat := by omega
            have hy1 : ¬ y.toNat < z.toNat := by omega
            have hy2 : ¬ z.toNat < y.toNat := by omega
            simp only [hx1, hx2, if_false] at hab
            simp only [hy1, hy2, if_false] at hbc
            simpa using ih ys zs (by simpa using hab) (by simpa using hbc)
          · have hx1 : ¬ x.toNat < y.toNat := by omega
            simp [hx1, hxy] at hab
        · exfalso
          rcases Nat.lt_trichotomy x.toNat y.toNat with hxy | hxy | hxy
          · rcases Nat.lt_trichotomy y.toNat z.toNat with hyz | hyz | hyz
            · omega
            · omega
            · have hy1 : ¬ y.toNat < z.toNat := by omega
              simp [hy1, hyz] at hbc
          · have hy1 : ¬ y.toNat < z.toNat := by omega
            have hy2 : z.toNat < y.toNat := by omega
            simp [hy1, hy2] at hbc
          · have hx1 : ¬ x.toNat < y.toNat := by omega
            simp [hx1, hxy] at hab

instance : IsTotal String strLeP :=
  ⟨fun a b => charListLe_total a.data b.data⟩

instance : IsTrans String strLeP :=
  ⟨fun a b c hab hbc => charListLe_trans a.data b.data c.data hab hbc⟩

instance : IsAntisymm String strLeP :=
  ⟨fun a b hab hba => by
    have h := charListLe_antisymm a.data b.data hab hba
    cases a; cases b; exact congrArg String.mk h⟩

instance : IsRefl String strLeP :=
  ⟨fun a => charListLe_refl a.data⟩

/-- The consecutive numbering `name ↦ i, i+1, ...` as an association list. -/
def numberFrom : Nat → List String → List (String × Nat)
  | _, [] => []
  | i, n :: rest => (n, i) :: numberFrom (i + 1) rest

/-- The inverse numbering `i ↦ name`. -/
def invNumberFrom : Nat → List String → List (Nat × String)
  | _, [] => []
  | i, n :: rest => (i, n) :: invNumberFrom (i + 1) rest

theorem numberFrom_map_fst : ∀ (i : Nat) (names : List String),
    (numberFrom i names).map Prod.fst = names := by
  intro i names
  induction names generalizing i with
  | nil => rfl
  | cons n rest ih => simp [numberFrom, ih]

theorem numberFrom_map_snd : ∀ (i : Nat) (names : List String),
    (numberFrom i names).map Prod.snd = List.range' i names.length := by
  intro i names
  induction names generalizing i with
  | nil => rfl
  | cons n rest ih => simp [numberFrom, List.range', ih]

theorem lookup_numberFrom_bound : ∀ {names : List String} {i : Nat} {nm : String} {v : Nat},
    (numberFrom i names).lookup nm = some v → nm ∈ names ∧ i ≤ v ∧ v < i + names.length := by
  intro names
  induction names with
  | nil => intro i nm v h; simp [numberFrom, List.lookup] at h
  | cons n rest ih =>
    intro i nm v h
    simp only [numberFrom, List.lookup] at h
    cases hk : (nm == n)
    · simp only [hk] at h
      obtain ⟨h1, h2, h3⟩ := ih h
      refine ⟨List.mem_cons_of_mem _ h1, by omega, by simp [List.length_cons]; omega⟩
    · simp only [hk] at h
      cases h
      have : nm = n := by simpa using hk
      exact ⟨by simp [this], Nat.le_refl i, by simp [List.length_cons]⟩

theorem lookup_invNumberFrom_bound : ∀ {names : List String} {i : Nat} {v : Nat} {nm : String},
    (invNumberFrom i names).lookup v = some nm → nm ∈ names ∧ i ≤ v ∧ v < i + names.length := by
  intro names
  induction names with
  | nil => intro i v nm h; simp [invNumberFrom, List.lookup] at h
  | cons n rest ih =>
    intro i v nm h
    simp only [invNumberFrom, List.lookup] at h
    cases hk : (v == i)
    · simp only [hk] at h
      obtain ⟨h1, h2, h3⟩ := ih h
      refine ⟨List.mem_cons_of_mem _ h1, by omega, by simp [List.length_cons]; omega⟩
    · simp only [hk] at h
      cases h
      have : v = i := by simpa using hk
      exact ⟨by simp, by omega, by simp [List.length_cons, this]⟩

/-- With duplicate-free names, the two numberings are exact inverses. -/
theorem numberFrom_inverse : ∀ {names : List String} {i : Nat}, names.Nodup →
    ∀ (nm : String) (v : Nat),
    ((numberFrom i names).lookup nm = some v ↔ (invNumberFrom i names).lookup v = some nm) := by
  intro names
  induction names with
  | nil => intro i _ nm v; simp [numberFrom, invNumberFrom, List.lookup]
  | cons n rest ih =>
    intro i hnd nm v
    have hndr : rest.Nodup := (List.nodup_cons.mp hnd).2
    have hnmem : n ∉ rest := (List.nodup_cons.mp hnd).1
    simp only [numberFrom, invNumberFrom, List.lookup]
    by_cases hnm : nm = n
    · subst hnm
      by_cases hv : v = i
      · subst hv; simp
      · have h1 : (v == i) = false := by simpa using hv
        simp only [beq_self_eq_true, h1]
        constructor
        · intro hh
          cases hh
          exact absurd rfl hv
        · intro hh
          exact absurd (lookup_invNumberFrom_bound hh).1 hnmem
    · have h1 : (nm == n) = false := by simpa using hnm
      by_cases hv : v = i
      · subst hv
        simp only [h1, beq_self_eq_true]
        constructor
        · intro hh
          have := (lookup_numberFrom_bound hh).2.1
          omega
        · intro hh
          cases hh
          exact absurd rfl hnm
      · have h2 : (v == i) = false := by simpa using hv
        simp only [h1, h2]
        exact ih hndr nm v

/-- Structure of the symbol-numbering loop: fresh names are appended with
consecutive numbers starting at `256 + len(symbol2number)`. -/
theorem assignSymbols_spec : ∀ (names : List String) (g : Grammar),
    names.Nodup →
    (∀ nm, nm ∈ names → g.symbol2number.lookup nm = none) →
    (∀ v, 256 + g.symbol2number.length ≤ v → g.number2symbol.lookup v = none) →
    (assignSymbols g names).symbol2number
      = g.symbol2number ++ numberFrom (256 + g.symbol2number.length) names ∧
    (assignSymbols g names).number2symbol
      = g.number2symbol ++ invNumberFrom (256 + g.symbol2number.length) names := by
  intro names
  induction names with
  | nil => intro g _ _ _; simp [assignSymbols, numberFrom, invNumberFrom]
  | cons n rest ih =>
    intro g hnd habs hn2s
    have hndr : rest.Nodup := (List.nodup_cons.mp hnd).2
    have hnmem : n ∉ rest := (List.nodup_cons.mp hnd).1
    have hs2n : g.symbol2number.lookup n = none := habs n (by simp)
    have hi : g.number2symbol.lookup (256 + g.symbol2number.length) = none :=
      hn2s _ (Nat.le_refl _)
    simp only [assignSymbols]
    rw [alInsert_of_absent _ _ _ hs2n, alInsert_of_absent _ _ _ hi]
    set g2 : Grammar :=
      { g with
        symbol2number := g.symbol2number ++ [(n, 256 + g.symbol2number.length)],
        number2symbol := g.number2symbol ++ [(256 + g.symbol2number.length, n)] } with hg2
    have hlen : g2.symbol2number.length = g.symbol2number.length + 1 := by
      simp [hg2]
    have habs2 : ∀ nm, nm ∈ rest → g2.symbol2number.lookup nm = none := by
      intro nm hm
      have hne : (nm == n) = false := by
        simp only [beq_eq_false_iff_ne]
        intro hh
        exact hnmem (hh ▸ hm)
      rw [hg2]
      simp only
      rw [lookup_append_of_none _ _ _ (habs nm (List.mem_cons_of_mem _ hm)),
        lookup_singleton]
      simp [hne]
    have hn2s2 : ∀ v, 256 + g2.symbol2number.length ≤ v → g2.number2symbol.lookup v = none := by
      intro v hv
      rw [hg2]
      simp only
      rw [lookup_append_of_none _ _ _ (hn2s v (by omega)), lookup_singleton]
      have : (v == 256 + g.symbol2number.length) = false := by
        simp only [beq_eq_false_iff_ne]
        omega
      simp [this]
    obtain ⟨e1, e2⟩ := ih g2 hndr habs2 hn2s2
    rw [e1, e2, hlen]
    constructor
    · rw [hg2]
      simp [numberFrom, Nat.add_assoc]
    · rw [hg2]
      simp [invNumberFrom, Nat.add_assoc]

/-- Claim C7: `make_grammar` numbers all rule names in lexicographic
order with consecutive integers from 256 upward (just above the reserved
terminal range); `symbol2number` and `number2symbol` are exact inverses
over exactly the rule names; and the assignment is reproducible: any
permutation of the same rule names sorts, and hence numbers,
identically. -/
theorem thmC7 : ∀ (names : List String) (s : String), names.Nodup →
    (assignSymbols (Grammar.init s) (sortNames names)).symbol2number
        = numberFrom 256 (sortNames names) ∧
    (assignSymbols (Grammar.init s) (sortNames names)).number2symbol
        = invNumberFrom 256 (sortNames names) ∧
    ((numberFrom 256 (sortNames names)).map Prod.fst = sortNames names) ∧
    ((numberFrom 256 (sortNames names)).map Prod.snd = List.range' 256 names.length) ∧
    (∀ (nm : String) (v : Nat),
      ((numberFrom 256 (sortNames names)).lookup nm = some v ↔
       (invNumberFrom 256 (sortNames names)).lookup v = some nm)) ∧
    (sortNames names).Perm names ∧
    List.Sorted strLeP (sortNames names) ∧
    (∀ names2 : List String, names2.Perm names → sortNames names2 = sortNames names) := by
  intro names s hnd
  have hperm : (sortNames names).Perm names := List.perm_insertionSort strLeP names
  have hsort : List.Sorted strLeP (sortNames names) := List.sorted_insertionSort strLeP names
  have hndS : (sortNames names).Nodup := hperm.nodup_iff.mpr hnd
  have hspec := assignSymbols_spec (sortNames names) (Grammar.init s) hndS
    (by intro nm _; simp [Grammar.init, List.lookup])
    (by intro v _; simp [Grammar.init, List.lookup])
  refine ⟨?_, ?_, numberFrom_map_fst _ _, ?_, fun nm v => numberFrom_inverse hndS nm v,
    hperm, hsort, ?_⟩
  · have := hspec.1
    simpa [Grammar.init] using this
  · have := hspec.2
    simpa [Grammar.init] using this
  · rw [numberFrom_map_snd, hperm.length_eq]
  · intro names2 hp
    exact List.eq_of_perm_of_sorted
      ((List.perm_insertionSort strLeP names2).trans (hp.trans hperm.symm))
      (List.sorted_insertionSort strLeP names2) hsort

/-- Witness for thmC7 at concrete inputs. -/
theorem thmC7_witness :
    (["b", "a"] : List String).Nodup ∧
    numberFrom 256 (sortNames ["b", "a"]) = [("a", 256), ("b", 257)] ∧
    (assignSymbols (Grammar.init "b") (sortNames ["b", "a"])).symbol2number
      = numberFrom 256 (sortNames ["b", "a"]) :=
  ⟨by decide, by decide, (thmC7 ["b", "a"] "b" (by decide)).1⟩

/-!  ## Minimizer pass facts (claims C5, C8, C9). -/

theorem enumFrom_mem {α : Type} : ∀ {l : List α} {k j : Nat} {a : α},
    (j, a) ∈ enumFrom k l → k ≤ j ∧ j - k < l.length ∧ l[j - k]? = some a := by
  intro l
  induction l with
  | nil => intro k j a h; simp [enumFrom] at h
  | cons b bs ih =>
    intro k j a h
    simp only [enumFrom, List.mem_cons] at h
    rcases h with h | h
    · injection h with h1 h2
      subst h1; subst h2
      simp
    · obtain ⟨h1, h2, h3⟩ := ih h
      refine ⟨by omega, by simp [List.length_cons]; omega, ?_⟩
      have hj : j - k = (j - (k + 1)) + 1 := by omega
      rw [hj]
      simpa using h3

theorem findMerge_some : ∀ {arena : List DState} {si : DState} {js : List (Nat × Nat)} {j : Nat},
    findMerge arena si js = some j →
    ∃ id, (j, id) ∈ js ∧ dfaEq si (arenaGet arena id) = true := by
  intro arena si js
  induction js with
  | nil => intro j h; simp [findMerge] at h
  | cons p rest ih =>
    intro j h
    rcases p with ⟨j2, id⟩
    simp only [findMerge] at h
    split at h
    · cases h
      exact ⟨id, by simp, by assumption⟩
    · obtain ⟨id2, h1, h2⟩ := ih h
      exact ⟨id2, List.mem_cons_of_mem _ h1, h2⟩

theorem findMerge_none : ∀ {arena : List DState} {si : DState} {js : List (Nat × Nat)},
    findMerge arena si js = none →
    ∀ j id, (j, id) ∈ js → dfaEq si (arenaGet arena id) = false := by
  intro arena si js
  induction js with
  | nil => intro _ j id h; simp at h
  | cons p rest ih =>
    intro h j id hm
    rcases p with ⟨j2, id2⟩
    simp only [findMerge] at h
    split at h
    · cases h
    · rename_i hne
      rcases List.mem_cons.mp hm with he | hm2
      · cases he
        simpa using hne
      · exact ih h j id hm2

theorem eraseIdx_head {α : Type} : ∀ (l : List α) (n : Nat),
    (l.eraseIdx (n + 1)).head? = l.head? := by
  intro l n
  cases l <;> simp [List.eraseIdx]

/-- Behaviour of one cursor sweep of `_simplify_dfas`: the live list never
grows; a raised change flag persists; an unchanged sweep leaves arena and
live list untouched; a sweep that starts unchanged and reports a change
deleted at least one state, strictly shrinking the live list; the head of
the live list is always preserved (deletions happen at positions `>= i+1
>= 1`). -/
theorem passAux_spec : ∀ (fuel : Nat) (arena : List DState) (live : List Nat)
    (i : Nat) (changed : Bool),
    ((passAux fuel arena live i changed).2.1.length ≤ live.length) ∧
    (changed = true → (passAux fuel arena live i changed).2.2 = true) ∧
    ((passAux fuel arena live i changed).2.2 = false →
      (passAux fuel arena live i changed).1 = arena ∧
      (passAux fuel arena live i changed).2.1 = live ∧ changed = false) ∧
    (changed = false → (passAux fuel arena live i changed).2.2 = true →
      (passAux fuel arena live i changed).2.1.length < live.length) ∧
    ((passAux fuel arena live i changed).2.1.head? = live.head?) := by
  intro fuel
  induction fuel with
  | zero =>
    intro arena live i changed
    refine ⟨Nat.le_refl _, fun h => h, fun h => ⟨rfl, rfl, by simpa using h⟩, ?_, rfl⟩
    intro h1 h2
    simp [passAux, h1] at h2
  | succ n ih =>
    intro arena live i changed
    simp only [passAux]
    split
    · rename_i hi
      split
      · exact ih arena live (i + 1) changed
      · rename_i j hfm
        obtain ⟨id, hmem, _⟩ := findMerge_some hfm
        obtain ⟨hj1, hj2, _⟩ := enumFrom_mem hmem
        have hjlt : j < live.length := by
          have := List.length_drop (i + 1) live ▸ hj2
          omega
        have hjpos : ∃ j2, j = j2 + 1 := ⟨j - 1, by omega⟩
        obtain ⟨j2, hj⟩ := hjpos
        have hlen2 : (live.eraseIdx j).length = live.length - 1 :=
          List.length_eraseIdx_of_lt hjlt
        have ihm := ih (unifyAll arena (live.eraseIdx j) (live.getD j 0) (live.getD i 0))
          (live.eraseIdx j) (i + 1) true
        refine ⟨?_, ?_, ?_, ?_, ?_⟩
        · exact le_trans ihm.1 (by omega)
        · intro _
          exact ihm.2.1 rfl
        · intro h
          have := ihm.2.1 rfl
          rw [this] at h
          cases h
        · intro _ _
          have := ihm.1
          omega
        · rw [ihm.2.2.2.2, hj, eraseIdx_head]
    · refine ⟨Nat.le_refl _, fun h => h, fun h => ⟨rfl, rfl, by simpa using h⟩, ?_, rfl⟩
      intro h1 h2
      rw [h1] at h2
      cases h2

theorem simplifyLoop_isSome : ∀ (fuel : Nat) (arena : List DState) (live : List Nat),
    live.length < fuel → (simplifyLoop fuel arena live).isSome := by
  intro fuel
  induction fuel with
  | zero => intro _ _ h; omega
  | succ n ih =>
    intro arena live h
    simp only [simplifyLoop]
    cases hp : simplifyPass arena live with
    | mk a2 r =>
      cases r with
      | mk l2 ch =>
        cases ch
        · simp
        · have hs := passAux_spec live.length arena live 0 false
          unfold simplifyPass at hp
          rw [hp] at hs
          have hlt : l2.length < live.length := hs.2.2.2.1 rfl rfl
          exact ih a2 l2 (by omega)

/-- Claim C8: `_simplify_dfas` terminates on every finite state list: a
pass that reports a change strictly decreased the state count (each merge
deletes exactly one state), a pass that reports no change left the list
untouched and ends the loop, and consequently the modelled fixpoint loop
always produces a result within `length + 1` passes. -/
theorem thmC8 :
    (∀ (arena : List DState) (live : List Nat),
      ((simplifyPass arena live).2.2 = true →
        (simplifyPass arena live).2.1.length < live.length) ∧
      ((simplifyPass arena live).2.2 = false →
        (simplifyPass arena live).1 = arena ∧ (simplifyPass arena live).2.1 = live)) ∧
    (∀ (arena : List DState) (live : List Nat), (simplifyDfas arena live).isSome) := by
  constructor
  · intro arena live
    have hs := passAux_spec live.length arena live 0 false
    unfold simplifyPass
    exact ⟨fun h => hs.2.2.2.1 rfl h, fun h => ⟨(hs.2.2.1 h).1, (hs.2.2.1 h).2.1⟩⟩
  · intro arena live
    exact simplifyLoop_isSome (live.length + 1) arena live (Nat.lt_succ_self _)

/-- Demonstration automaton for the minimizer: `start: ('a' | 'b') 'c'`
has two structurally identical states consuming the trailing `'c'`. -/
def demoArena : List DState :=
  [⟨[0], false, [(quoteS "a", 1), (quoteS "b", 2)]⟩,
   ⟨[1], false, [(quoteS "c", 3)]⟩,
   ⟨[2], false, [(quoteS "c", 3)]⟩,
   ⟨[3], true, []⟩]

/-- Witness for thmC8 at a concrete merging pass. -/
theorem thmC8_witness :
    (simplifyPass demoArena [0, 1, 2, 3]).2.2 = true ∧
    (simplifyPass demoArena [0, 1, 2, 3]).2.1.length < 4 :=
  ⟨by decide, (thmC8.1 demoArena [0, 1, 2, 3]).1 (by decide)⟩

/-!  ## Subset-construction invariants (claims C4, C9). -/

theorem set_of_getElem {α : Type} : ∀ (l : List α) (i : Nat) (v : α),
    l[i]? = some v → l.set i v = l := by
  intro l
  induction l with
  | nil => intro i v h; simp at h
  | cons a as ih =>
    intro i v h
    cases i with
    | zero => simp at h; simp [List.set, h]
    | succ n =>
      simp only [List.getElem?_cons_succ] at h
      simp [List.set, ih n v h]

theorem addArc_some : ∀ {st : DState} {l : String} {t : Nat} {st2 : DState},
    addArc st l t = some st2 →
    st2.nfaset = st.nfaset ∧ st2.isfinal = st.isfinal ∧
    st2.arcs = st.arcs ++ [(l, t)] := by
  intro st l t st2 h
  unfold addArc at h
  split at h
  · cases h
  · cases h
    exact ⟨rfl, rfl, rfl⟩

theorem setEq_symm {α : Type} [BEq α] (a b : List α) : setEq a b = setEq b a := by
  simp [setEq, Bool.and_comm]

/-- The label loop of `_make_dfas` preserves the recorded nfasets as a
prefix (it only rewrites arcs in place and appends fresh states), and
appends only nfasets that are set-distinct from everything present. -/
theorem processLabels_inv : ∀ (finish : Nat) (pend : List (String × List Nat))
    (states : List DState) (i : Nat) (states2 : List DState),
    processLabels finish pend states i = some states2 →
    (∃ ext, states2.map DState.nfaset = states.map DState.nfaset ++ ext) ∧
    (List.Pairwise (fun a b => setEq a b = false) (states.map DState.nfaset) →
     List.Pairwise (fun a b => setEq a b = false) (states2.map DState.nfaset)) := by
  intro finish pend
  induction pend with
  | nil =>
    intro states i states2 h
    cases h
    exact ⟨⟨[], by simp⟩, fun hp => hp⟩
  | cons p rest ih =>
    intro states i states2 h
    rcases p with ⟨label, nset⟩
    simp only [processLabels] at h
    cases hf : states.findIdx? (fun st => setEq st.nfaset nset) with
    | some k =>
      rw [hf] at h
      simp only at h
      cases hg : states[i]? with
      | none => rw [hg] at h; cases h
      | some sti =>
        rw [hg] at h
        simp only at h
        cases ha : addArc sti label k with
        | none => rw [ha] at h; cases h
        | some sti2 =>
          rw [ha] at h
          simp only at h
          have hmap : (states.set i sti2).map DState.nfaset = states.map DState.nfaset := by
            rw [List.map_set]
            apply set_of_getElem
            rw [List.getElem?_map, hg]
            simp [(addArc_some ha).1]
          obtain ⟨⟨ext, he⟩, hp⟩ := ih (states.set i sti2) i states2 h
          rw [hmap] at he hp
          exact ⟨⟨ext, he⟩, hp⟩
    | none =>
      rw [hf] at h
      simp only at h
      have hfresh : ∀ st ∈ states, setEq st.nfaset nset = false := by
        intro st hst
        have := List.findIdx?_eq_none_iff.mp hf st hst
        simpa using this
      cases hg : (states ++ [mkDState finish nset])[i]? with
      | none => rw [hg] at h; cases h
      | some sti =>
        rw [hg] at h
        simp only at h
        cases ha : addArc sti label states.length with
        | none => rw [ha] at h; cases h
        | some sti2 =>
          rw [ha] at h
          simp only at h
          have hmap : ((states ++ [mkDState finish nset]).set i sti2).map DState.nfaset
              = states.map DState.nfaset ++ [nset] := by
            rw [List.map_set]
            have : (states ++ [mkDState finish nset]).map DState.nfaset
                = states.map DState.nfaset ++ [nset] := by
              simp [mkDState]
            rw [this]
            apply set_of_getElem
            rw [← this, List.getElem?_map, hg]
            simp [(addArc_some ha).1]
          obtain ⟨⟨ext, he⟩, hp⟩ := ih _ i states2 h
          rw [hmap] at he hp
          refine ⟨⟨[nset] ++ ext, by rw [he, List.append_assoc]⟩, ?_⟩
          intro hpw
          apply hp
          rw [List.pairwise_append]
          refine ⟨hpw, by simp, ?_⟩
          intro a ha2 b hb2
          simp only [List.mem_singleton] at hb2
          subst hb2
          obtain ⟨st, hst, rfl⟩ := List.mem_map.mp ha2
          exact hfresh st hst

/-- The main loop of `_make_dfas` preserves the nfaset prefix and the
pairwise set-distinctness of nfasets. -/
theorem mainLoop_inv : ∀ (nfa : NFA) (finish fuel : Nat) (states : List DState)
    (i : Nat) (states2 : List DState),
    mainLoop nfa finish fuel states i = some states2 →
    (∃ ext, states2.map DState.nfaset = states.map DState.nfaset ++ ext) ∧
    (List.Pairwise (fun a b => setEq a b = false) (states.map DState.nfaset) →
     List.Pairwise (fun a b => setEq a b = false) (states2.map DState.nfaset)) := by
  intro nfa finish fuel
  induction fuel with
  | zero => intro states i states2 h; cases h
  | succ n ih =>
    intro states i states2 h
    simp only [mainLoop] at h
    cases hg : states[i]? with
    | none =>
      rw [hg] at h
      cases h
      exact ⟨⟨[], by simp⟩, fun hp => hp⟩
    | some sti =>
      rw [hg] at h
      simp only at h
      cases hgs : groupState nfa n sti.nfaset [] with
      | none => rw [hgs] at h; cases h
      | some arcsD =>
        rw [hgs] at h
        simp only at h
        cases hpl : processLabels finish arcsD states i with
        | none => rw [hpl] at h; cases h
        | some states3 =>
          rw [hpl] at h
          simp only at h
          obtain ⟨⟨e1, he1⟩, hp1⟩ := processLabels_inv finish arcsD states i states3 hpl
          obtain ⟨⟨e2, he2⟩, hp2⟩ := ih states3 (i + 1) states2 h
          refine ⟨⟨e1 ++ e2, ?_⟩, fun hp => hp2 (hp1 hp)⟩
          rw [he2, he1, List.append_assoc]

/-- Claim C4: subset construction targets an existing DFA state exactly
when one with a set-equal nfaset exists and appends a fresh state
otherwise, so the returned sequence has pairwise set-distinct nfasets and
its first element is the epsilon closure of the NFA start state. -/
theorem thmC4 : ∀ (nfa : NFA) (fuel start finish : Nat) (states : List DState),
    makeDfas nfa fuel start finish = some states →
    List.Pairwise (fun s1 s2 => setEq s1.nfaset s2.nfaset = false) states ∧
    ∃ base, closureOf nfa fuel start = some base ∧
      states.head?.map DState.nfaset = some base := by
  intro nfa fuel start finish states h
  unfold makeDfas at h
  cases hc : closureOf nfa fuel start with
  | none => rw [hc] at h; cases h
  | some base =>
    rw [hc] at h
    simp only at h
    obtain ⟨⟨ext, he⟩, hp⟩ := mainLoop_inv nfa finish fuel [mkDState finish base] 0 states h
    have hbase : ([mkDState finish base]).map DState.nfaset = [base] := by simp [mkDState]
    rw [hbase] at he hp
    constructor
    · exact List.pairwise_map.mp (hp (by simp))
    · refine ⟨base, rfl, ?_⟩
      rw [← List.head?_map, he]
      simp

/-- Witness for thmC4 at a concrete subset construction. -/
theorem thmC4_witness :
    makeDfas nfaC10 50 0 1
      = some [⟨[0], false, [(quoteS "<>", 1), (quoteS "!=", 1)]⟩, ⟨[1], true, []⟩] ∧
    (List.Pairwise (fun s1 s2 => setEq s1.nfaset s2.nfaset = false)
      [(⟨[0], false, [(quoteS "<>", 1), (quoteS "!=", 1)]⟩ : DState), ⟨[1], true, []⟩] ∧
     ∃ base, closureOf nfaC10 50 0 = some base ∧
      ([(⟨[0], false, [(quoteS "<>", 1), (quoteS "!=", 1)]⟩ : DState),
        ⟨[1], true, []⟩] : List DState).head?.map DState.nfaset = some base) :=
  ⟨by decide, thmC4 nfaC10 50 0 1 _ (by decide)⟩

theorem listModify_length {α : Type} : ∀ (l : List α) (n : Nat) (f : α → α),
    (listModify l n f).length = l.length := by
  intro l
  induction l with
  | nil => intro n f; rfl
  | cons a as ih =>
    intro n f
    cases n with
    | zero => rfl
    | succ m => simp [listModify, ih]

theorem arenaGet_listModify_nfaset : ∀ (l : List DState) (n : Nat) (f : DState → DState),
    (∀ x, (f x).nfaset = x.nfaset) →
    ∀ id, (arenaGet (listModify l n f) id).nfaset = (arenaGet l id).nfaset := by
  intro l
  induction l with
  | nil => intro n f _ id; rfl
  | cons a as ih =>
    intro n f hf id
    cases n with
    | zero =>
      cases id with
      | zero => simp [listModify, arenaGet, hf]
      | succ m => simp [listModify, arenaGet]
    | succ m =>
      cases id with
      | zero => simp [listModify, arenaGet]
      | succ k =>
        simp only [listModify, arenaGet, List.getD_cons_succ]
        exact ih m f hf k

theorem unifyAll_length : ∀ (live : List Nat) (arena : List DState) (old nw : Nat),
    (unifyAll arena live old nw).length = arena.length := by
  intro live
  induction live with
  | nil => intro arena old nw; rfl
  | cons x xs ih =>
    intro arena old nw
    simp only [unifyAll, List.foldl] at ih ⊢
    rw [ih, listModify_length]

theorem unifyAll_nfaset : ∀ (live : List Nat) (arena : List DState) (old nw id : Nat),
    (arenaGet (unifyAll arena live old nw) id).nfaset = (arenaGet arena id).nfaset := by
  intro live
  induction live with
  | nil => intro arena old nw id; rfl
  | cons x xs ih =>
    intro arena old nw id
    simp only [unifyAll, List.foldl] at ih ⊢
    rw [ih, arenaGet_listModify_nfaset]
    intro st
    rfl

/-- A minimizer sweep never changes the arena length nor any state's
nfaset (it only rewrites arc targets and shrinks the live list). -/
theorem passAux_arena : ∀ (fuel : Nat) (arena : List DState) (live : List Nat)
    (i : Nat) (changed : Bool),
    ((passAux fuel arena live i changed).1.length = arena.length) ∧
    (∀ id, (arenaGet (passAux fuel arena live i changed).1 id).nfaset
      = (arenaGet arena id).nfaset) := by
  intro fuel
  induction fuel with
  | zero => intro arena live i changed; exact ⟨rfl, fun _ => rfl⟩
  | succ n ih =>
    intro arena live i changed
    simp only [passAux]
    split
    · split
      · exact ih arena live (i + 1) changed
      · rename_i j hfm
        have ihm := ih (unifyAll arena (live.eraseIdx j) (live.getD j 0) (live.getD i 0))
          (live.eraseIdx j) (i + 1) true
        refine ⟨ihm.1.trans (unifyAll_length ..), fun id => (ihm.2 id).trans (unifyAll_nfaset ..)⟩
    · exact ⟨rfl, fun _ => rfl⟩

theorem simplifyLoop_pres : ∀ (fuel : Nat) (arena : List DState) (live : List Nat)
    (a2 : List DState) (l2 : List Nat),
    simplifyLoop fuel arena live = some (a2, l2) →
    l2.head? = live.head? ∧ a2.length = arena.length ∧
    (∀ id, (arenaGet a2 id).nfaset = (arenaGet arena id).nfaset) := by
  intro fuel
  induction fuel with
  | zero => intro arena live a2 l2 h; cases h
  | succ n ih =>
    intro arena live a2 l2 h
    simp only [simplifyLoop] at h
    have hs := passAux_spec live.length arena live 0 false
    have ha := passAux_arena live.length arena live 0 false
    cases hp : simplifyPass arena live with
    | mk a3 r =>
      cases r with
      | mk l3 ch =>
        rw [hp] at h
        have hp2 := hp
        unfold simplifyPass at hp2
        rw [hp2] at hs ha
        cases ch
        · simp only at h
          cases h
          obtain ⟨he1, he2, _⟩ := hs.2.2.1 rfl
          have ha2 : a2 = arena := he1
          have hl2 : l2 = live := he2
          subst ha2; subst hl2
          exact ⟨rfl, rfl, fun _ => rfl⟩
        · simp only at h
          obtain ⟨hh1, hh2, hh3⟩ := ih a3 l3 a2 l2 h
          refine ⟨hh1.trans hs.2.2.2.2, hh2.trans ha.1, fun id => (hh3 id).trans (ha.2 id)⟩

/-- Claim C9: index 0 of a rule's DFA sequence is the start state both as
returned by `_make_dfas` (its nfaset is the epsilon closure of the NFA
start) and after `_simplify_dfas` (minimization deletes only at positions
`>= 1`, never the head, and never alters an nfaset). -/
theorem thmC9 : ∀ (nfa : NFA) (fuel start finish : Nat) (states : List DState)
    (a2 : List DState) (l2 : List Nat),
    makeDfas nfa fuel start finish = some states →
    simplifyDfas states (List.range states.length) = some (a2, l2) →
    l2.head? = some 0 ∧ a2.length = states.length ∧
    ∃ base, closureOf nfa fuel start = some base ∧
      (arenaGet a2 0).nfaset = base ∧ states.head?.map DState.nfaset = some base := by
  intro nfa fuel start finish states a2 l2 hmk hsim
  unfold makeDfas at hmk
  cases hc : closureOf nfa fuel start with
  | none => rw [hc] at hmk; cases hmk
  | some base =>
    rw [hc] at hmk
    simp only at hmk
    obtain ⟨⟨ext, he⟩, _⟩ := mainLoop_inv nfa finish fuel [mkDState finish base] 0 states hmk
    have hbase : ([mkDState finish base]).map DState.nfaset = [base] := by simp [mkDState]
    rw [hbase] at he
    cases states with
    | nil => simp at he
    | cons s0 rest =>
      have hs0 : s0.nfaset = base := by
        have := congrArg List.head? he
        simpa using this
      obtain ⟨hp1, hp2, hp3⟩ := simplifyLoop_pres _ _ _ _ _ hsim
      refine ⟨?_, hp2, base, rfl, ?_, ?_⟩
      · rw [hp1]
        simp [List.range_succ_eq_map]
      · rw [hp3 0]
        simpa [arenaGet] using hs0
      · simp [hs0]

/-- Witness for thmC9 at a concrete rule pipeline. -/
theorem thmC9_witness :
    makeDfas nfaC10 50 0 1
      = some [⟨[0], false, [(quoteS "<>", 1), (quoteS "!=", 1)]⟩, ⟨[1], true, []⟩] ∧
    simplifyDfas [⟨[0], false, [(quoteS "<>", 1), (quoteS "!=", 1)]⟩, ⟨[1], true, []⟩]
      (List.range 2)
      = some ([⟨[0], false, [(quoteS "<>", 1), (quoteS "!=", 1)]⟩, ⟨[1], true, []⟩], [0, 1]) ∧
    ([0, 1] : List Nat).head? = some 0 :=
  ⟨by decide, by decide,
    (thmC9 nfaC10 50 0 1
      [⟨[0], false, [(quoteS "<>", 1), (quoteS "!=", 1)]⟩, ⟨[1], true, []⟩]
      [⟨[0], false, [(quoteS "<>", 1), (quoteS "!=", 1)]⟩, ⟨[1], true, []⟩]
      [0, 1] (by decide) (by decide)).1⟩

/-!  ## Minimizer structural-equality and arc-closure facts (claim C5). -/

theorem getD_eraseIdx_of_lt {α : Type} : ∀ (l : List α) (i j : Nat) (d : α), i < j →
    (l.eraseIdx j).getD i d = l.getD i d := by
  intro l
  induction l with
  | nil => intro i j d _; simp [List.eraseIdx]
  | cons a as ih =>
    intro i j d hij
    cases j with
    | zero => omega
    | succ j2 =>
      cases i with
      | zero => simp [List.eraseIdx]
      | succ i2 =>
        simp only [List.eraseIdx, List.getD_cons_succ]
        exact ih i2 j2 d (by omega)

theorem mem_eraseIdx_or {α : Type} : ∀ (l : List α) (j : Nat) (x : α) (d : α),
    x ∈ l → j < l.length → x ∈ l.eraseIdx j ∨ x = l.getD j d := by
  intro l
  induction l with
  | nil => intro j x d h _; simp at h
  | cons a as ih =>
    intro j x d hm hj
    cases j with
    | zero =>
      rcases List.mem_cons.mp hm with he | hm2
      · right; simp [he]
      · left; simpa [List.eraseIdx] using hm2
    | succ j2 =>
      rcases List.mem_cons.mp hm with he | hm2
      · left; simp [List.eraseIdx, he]
      · rcases ih j2 x d hm2 (by simpa [List.length_cons] using Nat.lt_of_succ_lt_succ hj)
          with h2 | h2
        · left; simp [List.eraseIdx, h2]
        · right; simpa using h2

theorem getD_not_mem_eraseIdx {α : Type} : ∀ (l : List α) (j : Nat) (d : α),
    l.Nodup → j < l.length → l.getD j d ∉ l.eraseIdx j := by
  intro l
  induction l with
  | nil => intro j d _ hj; simp at hj
  | cons a as ih =>
    intro j d hnd hj
    have hna : a ∉ as := (List.nodup_cons.mp hnd).1
    have hnas : as.Nodup := (List.nodup_cons.mp hnd).2
    cases j with
    | zero =>
      simpa [List.eraseIdx] using hna
    | succ j2 =>
      have hj2 : j2 < as.length := by simpa [List.length_cons] using Nat.lt_of_succ_lt_succ hj
      simp only [List.eraseIdx, List.getD_cons_succ, List.mem_cons]
      rintro (he | hm)
      · have : as.getD j2 d ∈ as := by
          rw [List.getD_eq_getElem as d hj2]
          exact as.getElem_mem hj2
        exact hna (he ▸ this)
      · exact ih j2 d hnas hj2 hm

theorem arenaGet_listModify : ∀ (l : List DState) (n : Nat) (f : DState → DState) (id : Nat),
    arenaGet (listModify l n f) id
      = if id = n ∧ n < l.length then f (arenaGet l id) else arenaGet l id := by
  intro l
  induction l with
  | nil => intro n f id; simp [listModify]
  | cons a as ih =>
    intro n f id
    cases n with
    | zero =>
      cases id with
      | zero => simp [listModify, arenaGet]
      | succ k => simp [listModify, arenaGet, (by omega : ¬ (k + 1 = 0))]
    | succ m =>
      cases id with
      | zero => simp [listModify, arenaGet, (by omega : ¬ ((0 : Nat) = m + 1))]
      | succ k =>
        simp only [listModify, arenaGet, List.getD_cons_succ]
        rw [← arenaGet, ← arenaGet, ih m f k]
        by_cases hkm : k = m
        · subst hkm
          by_cases hlen : k < as.length
          · simp [hlen, List.length_cons]
          · simp [hlen, List.length_cons, (by omega : ¬ (k + 1 < as.length + 1))]
        · simp [hkm, (by omega : ¬ (k + 1 = m + 1))]

/-- The redirect map applied to one arc by `unifystate`. -/
def redirect (old nw : Nat) (p : String × Nat) : String × Nat :=
  bif p.2 == old then (p.1, nw) else p

theorem unifyState_arcs (st : DState) (old nw : Nat) :
    (unifyState st old nw).arcs = st.arcs.map (redirect old nw) := rfl

/-- Core closure argument: folding `unifystate` over every remaining
state replaces all arcs into the deleted state by the surviving state, so
arc targets stay inside the remaining live set. -/
theorem unifyAll_IC : ∀ (xs : List Nat) (arena : List DState) (old nw : Nat) (S : List Nat),
    nw ∈ S → old ∉ S →
    (∀ id ∈ xs, ∀ p ∈ (arenaGet arena id).arcs, p.2 ∈ S ∨ p.2 = old) →
    (∀ id ∈ S, id ∉ xs → ∀ p ∈ (arenaGet arena id).arcs, p.2 ∈ S) →
    ∀ id ∈ S, ∀ p ∈ (arenaGet (unifyAll arena xs old nw) id).arcs, p.2 ∈ S := by
  intro xs
  induction xs with
  | nil =>
    intro arena old nw S _ _ _ h2 id hid p hp
    exact h2 id hid (by simp) p hp
  | cons x xs2 ih =>
    intro arena old nw S hnw hold h1 h2 id hid p hp
    have hredir : ∀ (q : String × Nat), q.2 ∈ S ∨ q.2 = old → (redirect old nw q).2 ∈ S := by
      intro q hq
      unfold redirect
      cases hqo : (q.2 == old)
      · simp only [cond_false]
        rcases hq with h | h
        · exact h
        · exact absurd h (by simpa using hqo)
      · simpa using hnw
    have harena2 : ∀ id2, (arenaGet (listModify arena x (fun st => unifyState st old nw)) id2)
        = if id2 = x ∧ x < arena.length then unifyState (arenaGet arena id2) old nw
          else arenaGet arena id2 := by
      intro id2
      exact arenaGet_listModify arena x _ id2
    have hstep : unifyAll arena (x :: xs2) old nw
        = unifyAll (listModify arena x (fun st => unifyState st old nw)) xs2 old nw := rfl
    rw [hstep] at hp
    refine ih (listModify arena x (fun st => unifyState st old nw)) old nw S hnw hold
      ?_ ?_ id hid p hp
    · intro id2 hid2 q hq
      rw [harena2 id2] at hq
      split at hq
      · rename_i hcond
        rw [unifyState_arcs] at hq
        obtain ⟨q0, hq0, rfl⟩ := List.mem_map.mp hq
        have := h1 x (by simp) q0 (by rw [hcond.1] at hq0; exact hq0)
        exact Or.inl (hredir q0 this)
      · exact h1 id2 (List.mem_cons_of_mem _ hid2) q hq
    · intro id2 hid2 hnx q hq
      rw [harena2 id2] at hq
      split at hq
      · rename_i hcond
        rw [unifyState_arcs] at hq
        obtain ⟨q0, hq0, rfl⟩ := List.mem_map.mp hq
        have := h1 x (by simp) q0 (by rw [hcond.1] at hq0; exact hq0)
        exact hredir q0 this
      · rename_i hcond
        by_cases hx : id2 = x
        · subst hx
          have := h1 id2 (by simp) q hq
          rcases this with h | h
          · exact h
          · exfalso
            rcases Nat.lt_or_ge id2 arena.length with hlt | hge
            · exact hcond ⟨rfl, hlt⟩
            · have : arenaGet arena id2 = default := by
                unfold arenaGet
                exact List.getD_eq_default _ _ hge
              rw [this] at hq
              simp [default] at hq
        · exact h2 id2 hid2 (by simp [hx, hnx]) q hq

theorem enumFrom_mem_of {α : Type} : ∀ (l : List α) (k j : Nat) (d : α),
    k ≤ j → j - k < l.length → (j, l.getD (j - k) d) ∈ enumFrom k l := by
  intro l
  induction l with
  | nil => intro k j d _ h; simp at h
  | cons a as ih =>
    intro k j d hk hlt
    by_cases hj : j = k
    · subst hj
      simp [enumFrom]
    · have hk2 : k + 1 ≤ j := by omega
      have hsub : j - k = (j - (k + 1)) + 1 := by omega
      have hlt2 : j - (k + 1) < as.length := by
        simp only [List.length_cons] at hlt
        omega
      have := ih (k + 1) j d hk2 hlt2
      simp only [enumFrom, List.mem_cons]
      right
      rw [hsub, List.getD_cons_succ]
      exact this

theorem getD_drop {α : Type} (l : List α) (n m : Nat) (d : α) (h : n + m < l.length) :
    (l.drop n).getD m d = l.getD (n + m) d := by
  have hm : m < (l.drop n).length := by
    rw [List.length_drop]
    omega
  have h1 : (l.drop n)[m]? = l[n + m]? := List.getElem?_drop l n m
  rw [List.getElem?_eq_getElem hm, List.getElem?_eq_getElem h] at h1
  rw [List.getD_eq_getElem _ d hm, List.getD_eq_getElem l d h]
  exact Option.some.inj h1

/-- An unchanged sweep certifies that no two live states (in scan order)
pass the structural equality test. -/
theorem passAux_nochange : ∀ (fuel : Nat) (arena : List DState) (live : List Nat) (i : Nat),
    live.length ≤ fuel + i →
    (passAux fuel arena live i false).2.2 = false →
    ∀ i2 j, i ≤ i2 → i2 < j → j < live.length →
      dfaEq (arenaGet arena (live.getD i2 0)) (arenaGet arena (live.getD j 0)) = false := by
  intro fuel
  induction fuel with
  | zero =>
    intro arena live i hlen _ i2 j h1 h2 h3
    omega
  | succ n ih =>
    intro arena live i hlen h i2 j h1 h2 h3
    simp only [passAux] at h
    split at h
    · rename_i hi
      split at h
      · rename_i hfm
        by_cases hi2 : i + 1 ≤ i2
        · exact ih arena live (i + 1) (by omega) h i2 j hi2 h2 h3
        · have hii : i2 = i := by omega
          subst hii
          have hjk : i2 + 1 ≤ j := by omega
          have hjmem : (j, live.getD j 0) ∈ enumFrom (i2 + 1) (live.drop (i2 + 1)) := by
            have hlt : j - (i2 + 1) < (live.drop (i2 + 1)).length := by
              rw [List.length_drop]
              omega
            have := enumFrom_mem_of (live.drop (i2 + 1)) (i2 + 1) j 0 hjk hlt
            rwa [getD_drop live (i2 + 1) (j - (i2 + 1)) 0 (by omega),
              (by omega : i2 + 1 + (j - (i2 + 1)) = j)] at this
          exact findMerge_none hfm j (live.getD j 0) hjmem
      · rename_i j2 hfm
        have hs := passAux_spec n
          (unifyAll arena (live.eraseIdx j2) (live.getD j2 0) (live.getD i 0))
          (live.eraseIdx j2) (i + 1) true
        rw [hs.2.1 rfl] at h
        cases h
    · rename_i hi
      omega

/-- Arc targets of live states stay inside the live list through one
sweep: at a merge, every remaining state's arcs into the deleted state
are redirected to the surviving state before scanning continues. -/
theorem passAux_IC : ∀ (fuel : Nat) (arena : List DState) (live : List Nat)
    (i : Nat) (changed : Bool),
    live.Nodup →
    (∀ id ∈ live, ∀ p ∈ (arenaGet arena id).arcs, p.2 ∈ live) →
    ((passAux fuel arena live i changed).2.1.Nodup ∧
     ∀ id ∈ (passAux fuel arena live i changed).2.1,
       ∀ p ∈ (arenaGet (passAux fuel arena live i changed).1 id).arcs,
         p.2 ∈ (passAux fuel arena live i changed).2.1) := by
  intro fuel
  induction fuel with
  | zero => intro arena live i changed hnd hic; exact ⟨hnd, hic⟩
  | succ n ih =>
    intro arena live i changed hnd hic
    simp only [passAux]
    split
    · rename_i hi
      split
      · exact ih arena live (i + 1) changed hnd hic
      · rename_i j hfm
        obtain ⟨id0, hmem, _⟩ := findMerge_some hfm
        obtain ⟨hj1, hj2, _⟩ := enumFrom_mem hmem
        have hjlt : j < live.length := by
          have := List.length_drop (i + 1) live ▸ hj2
          omega
        have hij : i < j := by omega
        have hilt : i < (live.eraseIdx j).length := by
          rw [List.length_eraseIdx_of_lt hjlt]
          omega
        have hnw : live.getD i 0 ∈ live.eraseIdx j := by
          rw [← getD_eraseIdx_of_lt live i j 0 hij]
          rw [List.getD_eq_getElem _ 0 hilt]
          exact List.getElem_mem hilt
        have hold : live.getD j 0 ∉ live.eraseIdx j :=
          getD_not_mem_eraseIdx live j 0 hnd hjlt
        have hndE : (live.eraseIdx j).Nodup := hnd.eraseIdx j
        have hic2 : ∀ id ∈ live.eraseIdx j,
            ∀ p ∈ (arenaGet (unifyAll arena (live.eraseIdx j)
              (live.getD j 0) (live.getD i 0)) id).arcs,
            p.2 ∈ live.eraseIdx j := by
          apply unifyAll_IC (live.eraseIdx j) arena (live.getD j 0) (live.getD i 0)
            (live.eraseIdx j) hnw hold
          · intro id hidm p hp
            have hmem2 : p.2 ∈ live :=
              hic id (List.mem_of_mem_eraseIdx hidm) p hp
            exact mem_eraseIdx_or live j p.2 0 hmem2 hjlt
          · intro id hidm hnm
            exact absurd hidm hnm
        exact ih _ (live.eraseIdx j) (i + 1) true hndE hic2
    · exact ⟨hnd, hic⟩

theorem simplifyLoop_final : ∀ (fuel : Nat) (arena : List DState) (live : List Nat)
    (a2 : List DState) (l2 : List Nat),
    simplifyLoop fuel arena live = some (a2, l2) →
    ∀ i j, i < j → j < l2.length →
      dfaEq (arenaGet a2 (l2.getD i 0)) (arenaGet a2 (l2.getD j 0)) = false := by
  intro fuel
  induction fuel with
  | zero => intro arena live a2 l2 h; cases h
  | succ n ih =>
    intro arena live a2 l2 h
    simp only [simplifyLoop] at h
    have hs := passAux_spec live.length arena live 0 false
    cases hp : simplifyPass arena live with
    | mk a3 r =>
      cases r with
      | mk l3 ch =>
        rw [hp] at h
        have hp2 := hp
        unfold simplifyPass at hp2
        rw [hp2] at hs
        cases ch
        · simp only at h
          cases h
          obtain ⟨he1, he2, _⟩ := hs.2.2.1 rfl
          have ha2 : a2 = arena := he1
          have hl2 : l2 = live := he2
          subst ha2; subst hl2
          intro i j h1 h2
          exact passAux_nochange l2.length a2 l2 0 (by omega)
            (by rw [hp2]) i j (by omega) h1 h2
        · simp only at h
          exact ih a3 l3 a2 l2 h

theorem simplifyLoop_IC : ∀ (fuel : Nat) (arena : List DState) (live : List Nat)
    (a2 : List DState) (l2 : List Nat),
    simplifyLoop fuel arena live = some (a2, l2) →
    live.Nodup →
    (∀ id ∈ live, ∀ p ∈ (arenaGet arena id).arcs, p.2 ∈ live) →
    ∀ id ∈ l2, ∀ p ∈ (arenaGet a2 id).arcs, p.2 ∈ l2 := by
  intro fuel
  induction fuel with
  | zero => intro arena live a2 l2 h; cases h
  | succ n ih =>
    intro arena live a2 l2 h hnd hic
    simp only [simplifyLoop] at h
    have hi := passAux_IC live.length arena live 0 false hnd hic
    cases hp : simplifyPass arena live with
    | mk a3 r =>
      cases r with
      | mk l3 ch =>
        rw [hp] at h
        have hp2 := hp
        unfold simplifyPass at hp2
        rw [hp2] at hi
        cases ch
        · simp only at h
          cases h
          exact hi.2
        · simp only at h
          exact ih a3 l3 a2 l2 h hi.1 hi.2

/-- Claim C5: after `_simplify_dfas` no two remaining states pass the
structural equality test (`__eq__`: same `isfinal` and same
label-to-identical-target arcs, nfaset ignored), and arc targets of
remaining states always point at remaining states, because each merge
redirected all arcs from the deleted state to the surviving one before
comparisons continued. -/
theorem thmC5 : ∀ (arena : List DState) (live : List Nat)
    (a2 : List DState) (l2 : List Nat),
    simplifyDfas arena live = some (a2, l2) →
    (∀ i j, i < j → j < l2.length →
      dfaEq (arenaGet a2 (l2.getD i 0)) (arenaGet a2 (l2.getD j 0)) = false) ∧
    (live.Nodup → (∀ id ∈ live, ∀ p ∈ (arenaGet arena id).arcs, p.2 ∈ live) →
      ∀ id ∈ l2, ∀ p ∈ (arenaGet a2 id).arcs, p.2 ∈ l2) := by
  intro arena live a2 l2 h
  exact ⟨simplifyLoop_final _ _ _ _ _ h,
    fun hnd hic => simplifyLoop_IC _ _ _ _ _ h hnd hic⟩

/-- The demonstration arena after minimization: state 2 was merged into
state 1, its incoming arcs redirected. -/
def demoArena2 : List DState :=
  [⟨[0], false, [(quoteS "a", 1), (quoteS "b", 1)]⟩,
   ⟨[1], false, [(quoteS "c", 3)]⟩,
   ⟨[2], false, [(quoteS "c", 3)]⟩,
   ⟨[3], true, []⟩]

/-- Witness for thmC5 at the concrete merge of the demonstration
automaton. -/
theorem thmC5_witness :
    simplifyDfas demoArena [0, 1, 2, 3] = some (demoArena2, [0, 1, 3]) ∧
    ([0, 1, 2, 3] : List Nat).Nodup ∧
    (∀ id ∈ ([0, 1, 2, 3] : List Nat), ∀ p ∈ (arenaGet demoArena id).arcs,
      p.2 ∈ ([0, 1, 2, 3] : List Nat)) ∧
    (∀ id ∈ ([0, 1, 3] : List Nat), ∀ p ∈ (arenaGet demoArena2 id).arcs,
      p.2 ∈ ([0, 1, 3] : List Nat)) :=
  ⟨by decide, by decide, by decide,
    (thmC5 demoArena [0, 1, 2, 3] demoArena2 [0, 1, 3] (by decide)).2
      (by decide) (by decide)⟩

/-!  ## Label classification keys (claims C3, C6).
`_make_label` deduplicates through three dicts (`symbol2label`,
`tokens`, `keywords`); the dedup bucket-and-key of a textual label is a
function of the label's shape, the symbol table and the token namespace
only. -/

theorem lookup_map_update_ne {α β : Type} [BEq α] [LawfulBEq α] :
    ∀ (m : List (α × β)) (k k2 : α) (v : β), k2 ≠ k →
    (m.map (fun p => bif p.1 == k then (k, v) else p)).lookup k2 = m.lookup k2 := by
  intro m k k2 v h
  induction m with
  | nil => rfl
  | cons p ps ih =>
    by_cases hp : p.1 = k
    · have h1 : (p.1 == k) = true := by simpa using hp
      have h2 : (k2 == p.1) = false := by
        simp only [beq_eq_false_iff_ne]
        intro hh
        exact h (hh.trans hp)
      have h3 : (k2 == k) = false := by simpa using h
      simp only [List.map_cons, h1, cond_true, List.lookup, h2, h3]
      exact ih
    · have h1 : (p.1 == k) = false := by simpa using hp
      simp only [List.map_cons, h1, cond_false, List.lookup]
      cases hk2 : (k2 == p.1)
      · simp only
        exact ih
      · rfl

theorem lookup_append_single_ne {α β : Type} [BEq α] [LawfulBEq α] :
    ∀ (m : List (α × β)) (k k2 : α) (v : β), k2 ≠ k →
    (m ++ [(k, v)]).lookup k2 = m.lookup k2 := by
  intro m k k2 v h
  induction m with
  | nil =>
    have h3 : (k2 == k) = false := by simpa using h
    simp [List.lookup, h3]
  | cons p ps ih =>
    simp only [List.cons_append, List.lookup]
    cases hk2 : (k2 == p.1)
    · simp only
      exact ih
    · rfl

theorem lookup_alInsert_ne {α β : Type} [BEq α] [LawfulBEq α]
    (m : List (α × β)) (k k2 : α) (v : β) (h : k2 ≠ k) :
    (alInsert m k v).lookup k2 = m.lookup k2 := by
  unfold alInsert
  split
  · exact lookup_map_update_ne m k k2 v h
  · exact lookup_append_single_ne m k k2 v h

theorem lookup_none_not_mem {α β : Type} [BEq α] [LawfulBEq α]
    (m : List (α × β)) (k : α) (h : m.lookup k = none) : k ∉ m.map Prod.fst := by
  induction m with
  | nil => simp
  | cons p ps ih =>
    simp only [List.lookup] at h
    cases hk : (k == p.1)
    · rw [hk] at h
      simp only [List.map_cons, List.mem_cons]
      rintro (he | hm)
      · rw [he] at hk
        simp at hk
      · exact ih h hm
    · rw [hk] at h
      cases h

/-- The dedup bucket a textual label resolves to in `_make_label`:
a nonterminal reference, a terminal-class id (shared by named tokens and
operators through `grammar.tokens`), a keyword string, or an invalid
label. -/
inductive LabelKey where
  | symbol (s : String)
  | token (t : Nat)
  | keyword (v : String)
  | bad
deriving DecidableEq, Repr

/-- Classification of a label by shape, symbol table and namespace,
mirroring the branch structure of `_make_label`. -/
def labelKey (toks : TokenNamespace) (s2n : List (String × Nat)) (label : String) : LabelKey :=
  if label.front.isAlpha then
    match s2n.lookup label with
    | some _ => LabelKey.symbol label
    | none =>
      match toks.named.lookup label with
      | some t => LabelKey.token t
      | none => LabelKey.bad
  else if label.front == quoteChar || label.front == Char.ofNat 34 then
    if (stripQuotes label).front.isAlpha then LabelKey.keyword (stripQuotes label)
    else LabelKey.token (toks.generate (stripQuotes label))
  else LabelKey.bad

/-- The label id currently assigned to a dedup key, across the three
dicts of the Grammar. -/
def assigned (g : Grammar) : LabelKey → Option Nat
  | LabelKey.symbol s => g.symbol2label.lookup s
  | LabelKey.token t => g.tokens.lookup t
  | LabelKey.keyword v => g.keywords.lookup v
  | LabelKey.bad => none

/-- Invariant of the label tables: every assigned id is a real label id
(at least 1, below the label count) and distinct keys hold distinct
ids. -/
def GInv (g : Grammar) : Prop :=
  (∀ k v, assigned g k = some v → 1 ≤ v ∧ v < g.labels.length) ∧
  (∀ k1 k2 v, assigned g k1 = some v → assigned g k2 = some v → k1 = k2)

/-- A label whose dedup key is already assigned is returned unchanged by
`_make_label`: the grammar (in particular `grammar.labels`) is not
touched and the existing id is reused. -/
theorem makeLabel_reuse : ∀ (toks : TokenNamespace) (g : Grammar) (label : String) (v : Nat),
    assigned g (labelKey toks g.symbol2number label) = some v →
    makeLabel toks g label = Except.ok (g, v) := by
  intro toks g label v h
  unfold labelKey at h
  unfold makeLabel
  by_cases ha : label.front.isAlpha
  · rw [if_pos ha] at h ⊢
    cases hs : g.symbol2number.lookup label with
    | some num =>
      rw [hs] at h
      simp only [assigned] at h
      simp [h]
    | none =>
      rw [hs] at h
      cases hn : toks.named.lookup label with
      | some t =>
        rw [hn] at h
        simp only [assigned] at h
        simp [h]
      | none =>
        rw [hn] at h
        simp [assigned] at h
  · rw [if_neg ha] at h ⊢
    by_cases hq : label.front == quoteChar || label.front == Char.ofNat 34
    · rw [if_pos hq] at h
      rw [if_pos hq]
      by_cases hv : (stripQuotes label).front.isAlpha
      · rw [if_pos hv] at h
        simp only [assigned] at h
        simp only [hv, if_true]
        simp [h]
      · rw [if_neg hv] at h
        simp only [assigned] at h
        simp only [hv, if_false]
        simp [h]
    · rw [if_neg hq] at h
      simp [assigned] at h

/-- Claim C6 (amended): the `_make_first` translation reuses an already
assigned id whenever the label's dedup key is present, creating no new
label entries and leaving the grammar untouched; the premise that every
first-set label was already observed can fail (see the counterexample),
in which case the classifier assigns a fresh id at this stage. -/
theorem thmC6 : ∀ (toks : TokenNamespace) (g : Grammar) (raw : List String),
    (∀ l ∈ raw, (assigned g (labelKey toks g.symbol2number l)).isSome) →
    ∃ fs, makeFirst toks g raw = Except.ok (g, fs) := by
  intro toks g raw
  unfold makeFirst
  generalize ([] : List Nat) = fs0
  induction raw generalizing fs0 with
  | nil => intro _; exact ⟨fs0, rfl⟩
  | cons l rest ih =>
    intro h
    have hl := h l (by simp)
    cases hv : assigned g (labelKey toks g.symbol2number l) with
    | none => rw [hv] at hl; cases hl
    | some v =>
      obtain ⟨fs, hfs⟩ := ih (setInsert fs0 v) (fun x hx => h x (List.mem_cons_of_mem _ hx))
      refine ⟨fs, ?_⟩
      simp only [makeFirstGo, makeLabel_reuse toks g l v hv]
      exact hfs

/-- Witness for thmC6 at a concrete grammar state with the key already
assigned. -/
theorem thmC6_witness :
    (∀ l ∈ [quoteS "x"],
      (assigned c6Final (labelKey toks0 c6Final.symbol2number l)).isSome) ∧
    ∃ fs, makeFirst toks0 c6Final [quoteS "x"] = Except.ok (c6Final, fs) :=
  ⟨by decide, thmC6 toks0 c6Final [quoteS "x"] (by decide)⟩

/-- Extending the label tables with a fresh id at an unassigned key
preserves the invariant and is monotone. -/
theorem GInv_extend (g g2 : Grammar) (bk : LabelKey)
    (hup : ∀ k, assigned g2 k = if k = bk then some g.labels.length else assigned g k)
    (hlen : g2.labels.length = g.labels.length + 1)
    (hnone : assigned g bk = none)
    (hgi : GInv g) (hpos : 1 ≤ g.labels.length) :
    GInv g2 ∧ (∀ k v, assigned g k = some v → assigned g2 k = some v) ∧
    assigned g2 bk = some g.labels.length := by
  have hnotold : ∀ k v, assigned g k = some v → v ≠ g.labels.length := by
    intro k v hk
    have := (hgi.1 k v hk).2
    omega
  refine ⟨⟨?_, ?_⟩, ?_, ?_⟩
  · intro k v hk
    rw [hup k] at hk
    split at hk
    · cases hk
      omega
    · have := hgi.1 k v hk
      omega
  · intro k1 k2 v h1 h2
    rw [hup k1] at h1
    rw [hup k2] at h2
    split at h1
    · split at h2
      · rename_i e1 e2
        rw [e1, e2]
      · cases h1
        exact absurd rfl (hnotold k2 _ h2)
    · split at h2
      · cases h2
        exact absurd rfl (hnotold k1 _ h1)
      · exact hgi.2 k1 k2 v h1 h2
  · intro k v hk
    rw [hup k]
    split
    · rename_i e
      rw [e, hnone] at hk
      cases hk
    · exact hk
  · rw [hup bk]
    simp

/-- Stepping `_make_label` on a successful classification: the invariant
is preserved, the symbol table is untouched, the label count never
shrinks, the returned id is recorded for the label's dedup key, and
previously assigned ids survive unchanged. -/
theorem makeLabel_spec : ∀ (toks : TokenNamespace) (g : Grammar) (label : String)
    (g2 : Grammar) (id : Nat),
    makeLabel toks g label = Except.ok (g2, id) →
    GInv g → 1 ≤ g.labels.length →
    GInv g2 ∧
    g2.symbol2number = g.symbol2number ∧
    1 ≤ g2.labels.length ∧
    assigned g2 (labelKey toks g.symbol2number label) = some id ∧
    (∀ k v, assigned g k = some v → assigned g2 k = some v) := by
  intro toks g label g2 id h hgi hpos
  unfold makeLabel at h
  by_cases ha : label.front.isAlpha
  · rw [if_pos ha] at h
    cases hs : g.symbol2number.lookup label with
    | some num =>
      rw [hs] at h
      simp only at h
      have hkey : labelKey toks g.symbol2number label = LabelKey.symbol label := by
        simp [labelKey, ha, hs]
      rw [hkey]
      cases hsl : g.symbol2label.lookup label with
      | some v =>
        rw [hsl] at h
        cases h
        exact ⟨hgi, rfl, hpos, hsl, fun _ _ hk => hk⟩
      | none =>
        rw [hsl] at h
        cases h
        have hup : ∀ k, assigned
            { g with
              labels := g.labels ++ [(num, none)],
              symbol2label := alInsert g.symbol2label label g.labels.length,
              label2symbol := alInsert g.label2symbol g.labels.length label } k
            = if k = LabelKey.symbol label then some g.labels.length else assigned g k := by
          intro k
          cases k with
          | symbol s =>
            by_cases he : s = label
            · subst he
              simp [assigned, lookup_alInsert_self]
            · simp [assigned, lookup_alInsert_ne _ _ _ _ he, he]
          | token t => simp [assigned]
          | keyword v => simp [assigned]
          | bad => simp [assigned]
        obtain ⟨h1, h2, h3⟩ := GInv_extend g _ (LabelKey.symbol label) hup (by simp)
          (by simp [assigned, hsl]) hgi hpos
        exact ⟨h1, rfl, by simp, h3, h2⟩
    | none =>
      rw [hs] at h
      simp only at h
      cases hn : toks.named.lookup label with
      | none => rw [hn] at h; cases h
      | some itoken =>
        rw [hn] at h
        simp only at h
        have hkey : labelKey toks g.symbol2number label = LabelKey.token itoken := by
          simp [labelKey, ha, hs, hn]
        rw [hkey]
        cases ht : g.tokens.lookup itoken with
        | some v =>
          rw [ht] at h
          cases h
          exact ⟨hgi, rfl, hpos, ht, fun _ _ hk => hk⟩
        | none =>
          rw [ht] at h
          cases h
          have hup : ∀ k, assigned
              { g with
                labels := g.labels ++ [(itoken, none)],
                tokens := alInsert g.tokens itoken g.labels.length } k
              = if k = LabelKey.token itoken then some g.labels.length else assigned g k := by
            intro k
            cases k with
            | symbol s => simp [assigned]
            | token t =>
              by_cases he : t = itoken
              · subst he
                simp [assigned, lookup_alInsert_self]
              · simp [assigned, lookup_alInsert_ne _ _ _ _ he, he]
            | keyword v => simp [assigned]
            | bad => simp [assigned]
          obtain ⟨h1, h2, h3⟩ := GInv_extend g _ (LabelKey.token itoken) hup (by simp)
            (by simp [assigned, ht]) hgi hpos
          exact ⟨h1, rfl, by simp, h3, h2⟩
  · rw [if_neg ha] at h
    by_cases hq : label.front == quoteChar || label.front == Char.ofNat 34
    · rw [if_pos hq] at h
      simp only at h
      by_cases hv : (stripQuotes label).front.isAlpha
      · rw [if_pos hv] at h
        have hkey : labelKey toks g.symbol2number label
            = LabelKey.keyword (stripQuotes label) := by
          simp [labelKey, ha, hq, hv]
        rw [hkey]
        cases hk : g.keywords.lookup (stripQuotes label) with
        | some v =>
          rw [hk] at h
          cases h
          exact ⟨hgi, rfl, hpos, hk, fun _ _ hx => hx⟩
        | none =>
          rw [hk] at h
          cases h
          have hup : ∀ k, assigned
              { g with
                labels := g.labels ++ [(toks.NAME, some (stripQuotes label))],
                keywords := alInsert g.keywords (stripQuotes label) g.labels.length } k
              = if k = LabelKey.keyword (stripQuotes label) then some g.labels.length
                else assigned g k := by
            intro k
            cases k with
            | symbol s => simp [assigned]
            | token t => simp [assigned]
            | keyword v =>
              by_cases he : v = stripQuotes label
              · subst he
                simp [assigned, lookup_alInsert_self]
              · simp [assigned, lookup_alInsert_ne _ _ _ _ he, he]
            | bad => simp [assigned]
          obtain ⟨h1, h2, h3⟩ := GInv_extend g _ (LabelKey.keyword (stripQuotes label))
            hup (by simp) (by simp [assigned, hk]) hgi hpos
          exact ⟨h1, rfl, by simp, h3, h2⟩
      · rw [if_neg hv] at h
        have hkey : labelKey toks g.symbol2number label
            = LabelKey.token (toks.generate (stripQuotes label)) := by
          simp [labelKey, ha, hq, hv]
        rw [hkey]
        cases ht : g.tokens.lookup (toks.generate (stripQuotes label)) with
        | some v =>
          rw [ht] at h
          cases h
          exact ⟨hgi, rfl, hpos, ht, fun _ _ hx => hx⟩
        | none =>
          rw [ht] at h
          cases h
          have hup : ∀ k, assigned
              { g with
                labels := g.labels ++ [(toks.generate (stripQuotes label), none)],
                tokens := alInsert g.tokens (toks.generate (stripQuotes label))
                  g.labels.length } k
              = if k = LabelKey.token (toks.generate (stripQuotes label))
                then some g.labels.length else assigned g k := by
            intro k
            cases k with
            | symbol s => simp [assigned]
            | token t =>
              by_cases he : t = toks.generate (stripQuotes label)
              · subst he
                simp [assigned, lookup_alInsert_self]
              · simp [assigned, lookup_alInsert_ne _ _ _ _ he, he]
            | keyword v => simp [assigned]
            | bad => simp [assigned]
          obtain ⟨h1, h2, h3⟩ := GInv_extend g _
            (LabelKey.token (toks.generate (stripQuotes label))) hup (by simp)
            (by simp [assigned, ht]) hgi hpos
          exact ⟨h1, rfl, by simp, h3, h2⟩
    · rw [if_neg hq] at h
      cases h

/-- Arc translation for one state: the invariant is threaded through the
classifier, and the emitted label ids are exactly the final assigned ids
of the textual labels' dedup keys. -/
theorem buildArcs_spec : ∀ (toks : TokenNamespace) (arena : List DState) (live : List Nat)
    (arcs : List (String × Nat)) (g : Grammar) (acc : List (Nat × Nat))
    (g2 : Grammar) (acc2 : List (Nat × Nat)),
    buildArcs toks arena live arcs g acc = Except.ok (g2, acc2) →
    GInv g → 1 ≤ g.labels.length →
    GInv g2 ∧ g2.symbol2number = g.symbol2number ∧ 1 ≤ g2.labels.length ∧
    (∀ k v, assigned g k = some v → assigned g2 k = some v) ∧
    ∃ pairs, acc2 = acc ++ pairs ∧
      pairs.map Prod.fst
        = arcs.map (fun a => (assigned g2 (labelKey toks g.symbol2number a.1)).getD 0) ∧
      (∀ a ∈ arcs, (assigned g2 (labelKey toks g.symbol2number a.1)).isSome) := by
  intro toks arena live arcs
  induction arcs with
  | nil =>
    intro g acc g2 acc2 h hgi hpos
    cases h
    exact ⟨hgi, rfl, hpos, fun _ _ hk => hk, [], by simp, by simp, by simp⟩
  | cons a rest ih =>
    intro g acc g2 acc2 h hgi hpos
    rcases a with ⟨label, t⟩
    simp only [buildArcs] at h
    cases hml : makeLabel toks g label with
    | error e => rw [hml] at h; cases h
    | ok p =>
      rcases p with ⟨g3, ilabel⟩
      rw [hml] at h
      simp only at h
      cases hdi : dfaIndex arena live t with
      | none => rw [hdi] at h; cases h
      | some k =>
        rw [hdi] at h
        simp only at h
        obtain ⟨hgi3, hs2n3, hpos3, hasg3, hmono3⟩ :=
          makeLabel_spec toks g label g3 ilabel hml hgi hpos
        obtain ⟨hgi2, hs2n2, hpos2, hmono2, pairs, hacc, hfst, hsome⟩ :=
          ih g3 (acc ++ [(ilabel, k)]) g2 acc2 h hgi3 hpos3
        have hasg2 : assigned g2 (labelKey toks g.symbol2number label) = some ilabel :=
          hmono2 _ _ hasg3
        refine ⟨hgi2, hs2n2.trans hs2n3, hpos2,
          fun k2 v hk => hmono2 k2 v (hmono3 k2 v hk), (ilabel, k) :: pairs, ?_, ?_, ?_⟩
        · rw [hacc, List.append_assoc]
          rfl
        · simp only [List.map_cons]
          rw [hfst, hs2n3]
          simp [hasg2]
        · intro a2 ha2
          rcases List.mem_cons.mp ha2 with he | hm
          · subst he
            simp [hasg2]
          · have := hsome a2 hm
            rwa [hs2n3] at this

/-- State-table emission for one rule: under the invariant, if no two
textual labels of any processed state share a dedup key, then no two
entries of any emitted arc-list share a label id (the accept arc uses the
reserved id 0, which is never an assigned id). -/
theorem buildStates_spec : ∀ (toks : TokenNamespace) (arena : List DState) (live : List Nat)
    (ids : List Nat) (g : Grammar) (acc : List (List (Nat × Nat)))
    (g2 : Grammar) (states2 : List (List (Nat × Nat))),
    buildStates toks arena live ids g acc = Except.ok (g2, states2) →
    GInv g → 1 ≤ g.labels.length →
    (∀ id ∈ ids, ((arenaGet arena id).arcs.map
        (fun p => labelKey toks g.symbol2number p.1)).Nodup) →
    GInv g2 ∧ g2.symbol2number = g.symbol2number ∧ 1 ≤ g2.labels.length ∧
    ∃ ext, states2 = acc ++ ext ∧ ∀ arcs2 ∈ ext, (arcs2.map Prod.fst).Nodup := by
  intro toks arena live ids
  induction ids with
  | nil =>
    intro g acc g2 states2 h hgi hpos _
    cases h
    exact ⟨hgi, rfl, hpos, [], by simp, by simp⟩
  | cons id rest ih =>
    intro g acc g2 states2 h hgi hpos hkeys
    simp only [buildStates] at h
    cases hba : buildArcs toks arena live (arenaGet arena id).arcs g [] with
    | error e => rw [hba] at h; cases h
    | ok p =>
      rcases p with ⟨g3, arcs⟩
      rw [hba] at h
      simp only at h
      obtain ⟨hgi3, hs2n3, hpos3, _, pairs, hacc, hfst, hsome⟩ :=
        buildArcs_spec toks arena live _ g [] g3 arcs hba hgi hpos
      have harcs : arcs = pairs := by simpa using hacc
      subst harcs
      have hnodup : (arcs.map Prod.fst).Nodup := by
        have hcomp : (fun a : String × Nat =>
            (assigned g3 (labelKey toks g.symbol2number a.1)).getD 0)
            = (fun k => (assigned g3 k).getD 0)
              ∘ (fun p : String × Nat => labelKey toks g.symbol2number p.1) := rfl
        rw [hfst, hcomp, ← List.map_map]
        apply List.Nodup.map_on
        · intro k1 hk1 k2 hk2 he
          obtain ⟨p1, hp1, rfl⟩ := List.mem_map.mp hk1
          obtain ⟨p2, hp2, rfl⟩ := List.mem_map.mp hk2
          have hs1 := hsome p1 hp1
          have hs2 := hsome p2 hp2
          cases hv1 : assigned g3 (labelKey toks g.symbol2number p1.1) with
          | none => rw [hv1] at hs1; cases hs1
          | some v1 =>
            cases hv2 : assigned g3 (labelKey toks g.symbol2number p2.1) with
            | none => rw [hv2] at hs2; cases hs2
            | some v2 =>
              rw [hv1, hv2] at he
              simp only [Option.getD_some] at he
              subst he
              exact hgi3.2 _ _ _ hv1 hv2
        · exact hkeys id (by simp)
      have hzero : (0 : Nat) ∉ arcs.map Prod.fst := by
        intro hmem
        rw [hfst] at hmem
        obtain ⟨p1, hp1, hpe⟩ := List.mem_map.mp hmem
        have hs1 := hsome p1 hp1
        cases hv1 : assigned g3 (labelKey toks g.symbol2number p1.1) with
        | none => rw [hv1] at hs1; cases hs1
        | some v1 =>
          rw [hv1] at hpe
          simp only [Option.getD_some] at hpe
          have := (hgi3.1 _ _ hv1).1
          omega
      have harcs2 : ∀ arcs2, (arcs2 = arcs ∨
          (∃ k, arcs2 = arcs ++ [(0, k)])) → (arcs2.map Prod.fst).Nodup := by
        rintro arcs2 (rfl | ⟨k, rfl⟩)
        · exact hnodup
        · rw [List.map_append]
          simp only [List.map_cons, List.map_nil]
          rw [List.nodup_append]
          exact ⟨hnodup, by simp, by simp [hzero]⟩
      have hkeys3 : ∀ id2 ∈ rest, ((arenaGet arena id2).arcs.map
          (fun p => labelKey toks g3.symbol2number p.1)).Nodup := by
        intro id2 hid2
        rw [hs2n3]
        exact hkeys id2 (List.mem_cons_of_mem _ hid2)
      obtain ⟨hgi2, hs2n2, hpos2, ext, hst, hnd⟩ := ih g3 _ g2 states2 h hgi3 hpos3 hkeys3
      refine ⟨hgi2, hs2n2.trans hs2n3, hpos2, ?_⟩
      refine ⟨(if (arenaGet arena id).isfinal then
          match dfaIndex arena live id with
          | none => arcs
          | some k => arcs ++ [(0, k)]
        else arcs) :: ext, ?_, ?_⟩
      · rw [hst, List.append_assoc]
        rfl
      · intro arcs2 ha2
        rcases List.mem_cons.mp ha2 with he | hm
        · subst he
          split
          · split
            · exact harcs2 arcs (Or.inl rfl)
            · rename_i k _
              exact harcs2 _ (Or.inr ⟨k, rfl⟩)
          · exact harcs2 arcs (Or.inl rfl)
        · exact hnd arcs2 hm

theorem addArc_lookup_none : ∀ {st : DState} {l : String} {t : Nat} {st2 : DState},
    addArc st l t = some st2 → st.arcs.lookup l = none := by
  intro st l t st2 h
  unfold addArc at h
  split at h
  · cases h
  · rename_i hcond
    exact Option.not_isSome_iff_eq_none.mp (by simpa using hcond)

/-- The label loop keeps every state's textual arc labels duplicate-free:
`add_arc` appends only labels not yet present. -/
theorem processLabels_nodup : ∀ (finish : Nat) (pend : List (String × List Nat))
    (states : List DState) (i : Nat) (states2 : List DState),
    processLabels finish pend states i = some states2 →
    (∀ st ∈ states, (st.arcs.map Prod.fst).Nodup) →
    ∀ st ∈ states2, (st.arcs.map Prod.fst).Nodup := by
  intro finish pend
  induction pend with
  | nil =>
    intro states i states2 h hok
    cases h
    exact hok
  | cons p rest ih =>
    intro states i states2 h hok
    rcases p with ⟨label, nset⟩
    simp only [processLabels] at h
    cases hf : states.findIdx? (fun st => setEq st.nfaset nset) with
    | some k =>
      rw [hf] at h
      simp only at h
      cases hg : states[i]? with
      | none => rw [hg] at h; cases h
      | some sti =>
        rw [hg] at h
        simp only at h
        cases ha : addArc sti label k with
        | none => rw [ha] at h; cases h
        | some sti2 =>
          rw [ha] at h
          simp only at h
          have hsti : (sti.arcs.map Prod.fst).Nodup := hok sti (List.getElem?_mem hg)
          have hnd2 : (sti2.arcs.map Prod.fst).Nodup := by
            rw [(addArc_some ha).2.2, List.map_append]
            simp only [List.map_cons, List.map_nil]
            rw [List.nodup_append]
            exact ⟨hsti, by simp,
              by simp [lookup_none_not_mem _ _ (addArc_lookup_none ha)]⟩
          refine ih _ i states2 h ?_
          intro st hst
          rcases List.mem_or_eq_of_mem_set hst with hm | he
          · exact hok st hm
          · rw [he]
            exact hnd2
    | none =>
      rw [hf] at h
      simp only at h
      cases hg : (states ++ [mkDState finish nset])[i]? with
      | none => rw [hg] at h; cases h
      | some sti =>
        rw [hg] at h
        simp only at h
        cases ha : addArc sti label states.length with
        | none => rw [ha] at h; cases h
        | some sti2 =>
          rw [ha] at h
          simp only at h
          have hok2 : ∀ st ∈ states ++ [mkDState finish nset],
              (st.arcs.map Prod.fst).Nodup := by
            intro st hst
            rcases List.mem_append.mp hst with hm | hm
            · exact hok st hm
            · simp only [List.mem_singleton] at hm
              rw [hm]
              simp [mkDState]
          have hsti : (sti.arcs.map Prod.fst).Nodup := hok2 sti (List.getElem?_mem hg)
          have hnd2 : (sti2.arcs.map Prod.fst).Nodup := by
            rw [(addArc_some ha).2.2, List.map_append]
            simp only [List.map_cons, List.map_nil]
            rw [List.nodup_append]
            exact ⟨hsti, by simp,
              by simp [lookup_none_not_mem _ _ (addArc_lookup_none ha)]⟩
          refine ih _ i states2 h ?_
          intro st hst
          rcases List.mem_or_eq_of_mem_set hst with hm | he
          · exact hok2 st hm
          · rw [he]
            exact hnd2

theorem mainLoop_nodup : ∀ (nfa : NFA) (finish fuel : Nat) (states : List DState)
    (i : Nat) (states2 : List DState),
    mainLoop nfa finish fuel states i = some states2 →
    (∀ st ∈ states, (st.arcs.map Prod.fst).Nodup) →
    ∀ st ∈ states2, (st.arcs.map Prod.fst).Nodup := by
  intro nfa finish fuel
  induction fuel with
  | zero => intro states i states2 h; cases h
  | succ n ih =>
    intro states i states2 h hok
    simp only [mainLoop] at h
    cases hg : states[i]? with
    | none =>
      rw [hg] at h
      cases h
      exact hok
    | some sti =>
      rw [hg] at h
      simp only at h
      cases hgs : groupState nfa n sti.nfaset [] with
      | none => rw [hgs] at h; cases h
      | some arcsD =>
        rw [hgs] at h
        simp only at h
        cases hpl : processLabels finish arcsD states i with
        | none => rw [hpl] at h; cases h
        | some states3 =>
          rw [hpl] at h
          simp only at h
          exact ih states3 (i + 1) states2 h
            (processLabels_nodup finish arcsD states i states3 hpl hok)

/-- A redirect never changes an arc's label. -/
theorem map_fst_redirect : ∀ (arcs : List (String × Nat)) (old nw : Nat),
    (arcs.map (redirect old nw)).map Prod.fst = arcs.map Prod.fst := by
  intro arcs old nw
  induction arcs with
  | nil => rfl
  | cons p ps ih =>
    simp only [List.map_cons, ih]
    unfold redirect
    cases hc : (p.2 == old) <;> simp

theorem unifyAll_fst : ∀ (live2 : List Nat) (arena : List DState) (old nw id : Nat),
    (arenaGet (unifyAll arena live2 old nw) id).arcs.map Prod.fst
      = (arenaGet arena id).arcs.map Prod.fst := by
  intro live2
  induction live2 with
  | nil => intro arena old nw id; rfl
  | cons x xs ih =>
    intro arena old nw id
    have hstep : unifyAll arena (x :: xs) old nw
        = unifyAll (listModify arena x (fun st => unifyState st old nw)) xs old nw := rfl
    rw [hstep, ih]
    rw [arenaGet_listModify]
    split
    · rw [unifyState_arcs, map_fst_redirect]
    · rfl

theorem passAux_fst : ∀ (fuel : Nat) (arena : List DState) (live : List Nat)
    (i : Nat) (changed : Bool) (id : Nat),
    (arenaGet (passAux fuel arena live i changed).1 id).arcs.map Prod.fst
      = (arenaGet arena id).arcs.map Prod.fst := by
  intro fuel
  induction fuel with
  | zero => intro arena live i changed id; rfl
  | succ n ih =>
    intro arena live i changed id
    simp only [passAux]
    split
    · split
      · exact ih arena live (i + 1) changed id
      · rename_i j hfm
        rw [ih _ (live.eraseIdx j) (i + 1) true id, unifyAll_fst]
    · rfl

theorem simplifyLoop_fst : ∀ (fuel : Nat) (arena : List DState) (live : List Nat)
    (a2 : List DState) (l2 : List Nat),
    simplifyLoop fuel arena live = some (a2, l2) →
    ∀ id, (arenaGet a2 id).arcs.map Prod.fst = (arenaGet arena id).arcs.map Prod.fst := by
  intro fuel
  induction fuel with
  | zero => intro arena live a2 l2 h; cases h
  | succ n ih =>
    intro arena live a2 l2 h
    simp only [simplifyLoop] at h
    have hf := passAux_fst live.length arena live 0 false
    cases hp : simplifyPass arena live with
    | mk a3 r =>
      cases r with
      | mk l3 ch =>
        rw [hp] at h
        have hp2 := hp
        unfold simplifyPass at hp2
        rw [hp2] at hf
        cases ch
        · simp only at h
          cases h
          intro id
          exact hf id
        · simp only at h
          intro id
          exact (ih a3 l3 a2 l2 h id).trans (hf id)

/-- The grammar state reached hypothetically satisfying the invariant
with all three label dicts empty. -/
theorem GInv_of_empty (g : Grammar) (h1 : g.symbol2label = [])
    (h2 : g.tokens = []) (h3 : g.keywords = []) : GInv g := by
  constructor
  · intro k v hk
    cases k <;> simp [assigned, h1, h2, h3, List.lookup] at hk
  · intro k1 k2 v hv1 hv2
    cases k1 <;> simp [assigned, h1, h2, h3, List.lookup] at hv1

/-- Claim C3 (amended): textual-label determinism holds at every
construction stage — `add_arc` refuses a label already present, every
state produced by subset construction has duplicate-free textual arc
labels, and minimization never changes a state's label list — and in the
final emitted table no two entries of a state's arc-list share a label id
provided no two textual labels of a state resolve to the same dedup key
(the same keyword value or the same terminal-class id); without that
proviso duplicate ids are possible (see the counterexample). -/
theorem thmC3 :
    (∀ (st : DState) (label : String) (t : Nat),
      (st.arcs.lookup label).isSome → addArc st label t = none) ∧
    (∀ (nfa : NFA) (fuel start finish : Nat) (states : List DState),
      makeDfas nfa fuel start finish = some states →
      ∀ st ∈ states, (st.arcs.map Prod.fst).Nodup) ∧
    (∀ (arena : List DState) (live : List Nat) (a2 : List DState) (l2 : List Nat),
      simplifyDfas arena live = some (a2, l2) →
      ∀ id, (arenaGet a2 id).arcs.map Prod.fst = (arenaGet arena id).arcs.map Prod.fst) ∧
    (∀ (toks : TokenNamespace) (arena : List DState) (live ids : List Nat)
       (g g2 : Grammar) (states2 : List (List (Nat × Nat))),
      buildStates toks arena live ids g [] = Except.ok (g2, states2) →
      GInv g → 1 ≤ g.labels.length →
      (∀ id ∈ ids, ((arenaGet arena id).arcs.map
        (fun p => labelKey toks g.symbol2number p.1)).Nodup) →
      ∀ arcs2 ∈ states2, (arcs2.map Prod.fst).Nodup) := by
  refine ⟨?_, ?_, ?_, ?_⟩
  · intro st label t h
    simp [addArc, h]
  · intro nfa fuel start finish states h
    unfold makeDfas at h
    cases hc : closureOf nfa fuel start with
    | none => rw [hc] at h; cases h
    | some base =>
      rw [hc] at h
      simp only at h
      refine mainLoop_nodup nfa finish fuel [mkDState finish base] 0 states h ?_
      intro st hst
      simp only [List.mem_singleton] at hst
      rw [hst]
      simp [mkDState]
  · intro arena live a2 l2 h
    exact simplifyLoop_fst _ _ _ _ _ h
  · intro toks arena live ids g g2 states2 h hgi hpos hkeys
    obtain ⟨_, _, _, ext, hst, hnd⟩ :=
      buildStates_spec toks arena live ids g [] g2 states2 h hgi hpos hkeys
    intro arcs2 ha2
    apply hnd arcs2
    rw [hst] at ha2
    simpa using ha2

/-- The grammar state after rule `a`'s arc table is built (before the
states append) in the `a: b` pipeline. -/
def c6G1arc : Grammar :=
  ⟨"a", [("a", 256), ("b", 257)], [(256, "a"), (257, "b")], [], [],
   [(0, some "EMPTY"), (257, none)], [], [], [("b", 1)], [(1, "b")]⟩

/-- Witness for thmC3 at a concrete rule's table emission. -/
theorem thmC3_witness :
    buildStates toks0 c6RepA.1 c6RepA.2 c6RepA.2 c6G0 []
      = Except.ok (c6G1arc, [[(1, 1)], [(0, 1)]]) ∧
    (c6G0.symbol2label = [] ∧ c6G0.tokens = [] ∧ c6G0.keywords = []) ∧
    c6G0.labels.length = 1 ∧
    (∀ id ∈ c6RepA.2, ((arenaGet c6RepA.1 id).arcs.map
      (fun p => labelKey toks0 c6G0.symbol2number p.1)).Nodup) ∧
    (∀ arcs2 ∈ ([[(1, 1)], [(0, 1)]] : List (List (Nat × Nat))),
      (arcs2.map Prod.fst).Nodup) :=
  ⟨by decide, ⟨by decide, by decide, by decide⟩, by decide, by decide,
    thmC3.2.2.2 toks0 c6RepA.1 c6RepA.2 c6RepA.2 c6G0 c6G1arc [[(1, 1)], [(0, 1)]]
      (by decide) (GInv_of_empty c6G0 (by decide) (by decide) (by decide))
      (by decide) (by decide)⟩

end Pgen
